import Mathlib

/-!
Verification development for the outline-model component (outlineModel.ts):
tree identifiers, fuzzy-match propagation, position-enclosure lookup, and the
multi-provider aggregation protocol.

Modelling conventions.
External collaborators are consumed as parameters, mirroring the source's
imports: the fuzzy scorer is an arbitrary function
`fs : String → String → Option FuzzyScore` (`none` renders the falsy
"no match" result of `fuzzyScore`), and range geometry is an arbitrary
predicate `contains : Rng → Pos → Bool` over arbitrary types `Rng`, `Pos`
(rendering `Range.containsPosition`).  JavaScript objects used as string-keyed
maps (`children`, `_groups`) are rendered as association lists in insertion
order, which is the `for … in` enumeration order for the non-numeric keys this
code produces.  Object references stored in `parent` fields are rendered as
id-based back-references (`ParentRef`).  Mutation is rendered by returning the
updated value.
-/

namespace Outline

/-- Fuzzy match score: a pair of a match value and the matched character
offsets (source line 17, `FuzzyScore = [number, number[]]`). -/
abbrev FuzzyScore := Int × List Nat

/-- Non-owning back-reference to a node (the source stores an object
reference in `parent`); rendered as the referent's kind and id. -/
inductive ParentRef : Type where
  | model : ParentRef
  | group : String → ParentRef
  | element : String → ParentRef
deriving DecidableEq

/-- Symbol information as delivered by a provider: a name, an optional
defining range, a location range, and optional nested children.  An absent
`children` field and an empty list are observationally equal in the source
(both produce zero loop iterations), so children are a plain list. -/
inductive SymbolInformation (Rng : Type) : Type where
  | mk : String → Option Rng → Rng → List (SymbolInformation Rng) → SymbolInformation Rng

/-- Name of a symbol. -/
def SymbolInformation.name : SymbolInformation Rng → String
  | .mk n _ _ _ => n

/-- Defining range of a symbol, when set. -/
def SymbolInformation.definingRange : SymbolInformation Rng → Option Rng
  | .mk _ d _ _ => d

/-- Location range of a symbol (`symbol.location.range`). -/
def SymbolInformation.locationRange : SymbolInformation Rng → Rng
  | .mk _ _ r _ => r

/-- Nested child symbols. -/
def SymbolInformation.children : SymbolInformation Rng → List (SymbolInformation Rng)
  | .mk _ _ _ cs => cs

/-- An outline element (source lines 48-60): an id, a parent back-reference,
the symbol it stands for, the current fuzzy score (`none` renders the falsy
no-match value; a fresh element carries the truthy default `[0, []]`), and a
children map keyed by id. -/
inductive OutlineElement (Rng : Type) : Type where
  | mk : String → ParentRef → SymbolInformation Rng → Option FuzzyScore →
      List (String × OutlineElement Rng) → OutlineElement Rng

/-- Identifier of an element. -/
def OutlineElement.id : OutlineElement Rng → String
  | .mk i _ _ _ _ => i

/-- Parent back-reference of an element. -/
def OutlineElement.parent : OutlineElement Rng → ParentRef
  | .mk _ p _ _ _ => p

/-- Symbol carried by an element. -/
def OutlineElement.symbol : OutlineElement Rng → SymbolInformation Rng
  | .mk _ _ s _ _ => s

/-- Current fuzzy score of an element. -/
def OutlineElement.score : OutlineElement Rng → Option FuzzyScore
  | .mk _ _ _ sc _ => sc

/-- Children map of an element. -/
def OutlineElement.children : OutlineElement Rng → List (String × OutlineElement Rng)
  | .mk _ _ _ _ cs => cs

/-- An outline group (source lines 62-73): the symbols contributed by one
provider.  The provider capability itself is never inspected by the code
under study and is represented only by `providerIndex`. -/
structure OutlineGroup (Rng : Type) : Type where
  id : String
  parent : ParentRef
  providerIndex : Nat
  children : List (String × OutlineElement Rng)

/-- Top-level child of the model: either a group or an adopted element
(source line 120). -/
inductive ModelChild (Rng : Type) : Type where
  | group : OutlineGroup Rng → ModelChild Rng
  | element : OutlineElement Rng → ModelChild Rng

/-- State of the outline model: the private per-provider bookkeeping
`_groups` and the presented top level `children` (source lines 119-120). -/
structure OutlineModelState (Rng : Type) : Type where
  _groups : List (String × OutlineGroup Rng)
  children : List (String × ModelChild Rng)

/-! ### TreeElement.findId (source lines 24-32)

The source loop tries the keys `container.id + candidate`,
`container.id + candidate + "1"`, `container.id + candidate + "2"`, … until
one is absent from `container.children`.  The loop is rendered with explicit
fuel `keys.length + 1`, which is proved sufficient below
(`findIdGo_eventually_free`): among `keys.length + 1` pairwise distinct
candidate strings at least one is not a current key. -/

/-- One round of the dedupe loop: try `base ++ Nat.repr i`, advancing `i`
while the candidate is a current key. -/
def findIdGo (base : String) (keys : List String) : Nat → Nat → String
  | 0, i => base ++ Nat.repr i
  | fuel + 1, i =>
    let id := base ++ Nat.repr i
    if id ∈ keys then findIdGo base keys fuel (i + 1) else id

/-- Deterministic, collision-resistant id generation (source lines 24-32).
The container is given by its id and its current children keys. -/
def TreeElement.findId (candidate : String) (containerId : String)
    (containerKeys : List String) : String :=
  let id := containerId ++ candidate
  if id ∈ containerKeys then
    findIdGo id containerKeys (containerKeys.length + 1) 1
  else id

/-! ### Concrete fixtures used by witnesses and counterexamples -/

/-- A constant fuzzy scorer: every name matches with value 5. -/
def fsConst : String → String → Option FuzzyScore := fun _ _ => some (5, [])

/-- A scorer matching exactly the names equal to the pattern, value 3. -/
def fsExact : String → String → Option FuzzyScore :=
  fun pattern nm => if nm == pattern then some (3, []) else none

/-- Fixture: an element named A with no children. -/
def elemA : OutlineElement Unit :=
  .mk "ga" (.group "g") (.mk "A" none () []) none []

/-- Fixture: an element named B with no children. -/
def elemB : OutlineElement Unit :=
  .mk "gb" (.group "g") (.mk "B" none () []) none []

/-- Fixture: a group holding A then B. -/
def tieGroup : OutlineGroup Unit :=
  ⟨"g", .model, 0, [("ga", elemA), ("gb", elemB)]⟩

/-- Fixture: a model state with the single group holding A then B. -/
def tieState : OutlineModelState Unit :=
  ⟨[("g", tieGroup)], []⟩

/-- Fixture: the deep chain A ▸ B ▸ C with unrelated sibling D. -/
def elemC2C : OutlineElement Unit :=
  .mk "gabc" (.element "gab") (.mk "C" none () []) none []

/-- Fixture: middle element of the chain. -/
def elemC2B : OutlineElement Unit :=
  .mk "gab" (.element "ga") (.mk "B" none () []) none [("gabc", elemC2C)]

/-- Fixture: top element of the chain. -/
def elemC2A : OutlineElement Unit :=
  .mk "ga" (.group "g") (.mk "A" none () []) none [("gab", elemC2B)]

/-- Fixture: unrelated sibling. -/
def elemC2D : OutlineElement Unit :=
  .mk "gd" (.group "g") (.mk "D" none () []) none []

/-- Fixture: the group holding the chain and the sibling. -/
def deepGroup : OutlineGroup Unit :=
  ⟨"g", .model, 0, [("ga", elemC2A), ("gd", elemC2D)]⟩

/-- Fixture for the enclosure counterexample: ranges are booleans and a
range contains the (only) position when it is true.  The grandchild's range
contains the position, its parent's does not, the top element's does. -/
def cexContains : Bool → Unit → Bool := fun r _ => r

/-- Fixture: grandchild whose range contains the position. -/
def cexC : OutlineElement Bool :=
  .mk "c" (.element "b") (.mk "C" none true []) none []

/-- Fixture: child whose range does not contain the position. -/
def cexB : OutlineElement Bool :=
  .mk "b" (.element "a") (.mk "B" none false []) none [("c", cexC)]

/-- Fixture: top element whose range contains the position. -/
def cexA : OutlineElement Bool :=
  .mk "a" .model (.mk "A" none true []) none [("b", cexB)]

/-- Fixture: the forest of the enclosure counterexample. -/
def cexForest : List (String × OutlineElement Bool) := [("a", cexA)]

/-- Fixture: first group for the model enclosure witness. -/
def encGroup1 : OutlineGroup Bool :=
  ⟨"g1", .model, 0, [("a", .mk "a" (.group "g1") (.mk "A" none true []) none [])]⟩

/-- Fixture: second group for the model enclosure witness, also hitting. -/
def encGroup2 : OutlineGroup Bool :=
  ⟨"g2", .model, 1, [("b", .mk "b" (.group "g2") (.mk "B" none true []) none [])]⟩

/-- Fixture: a model state with both enclosure groups. -/
def encState : OutlineModelState Bool :=
  ⟨[("g1", encGroup1), ("g2", encGroup2)], []⟩

/-- Fixture: one symbol named S with one nested child T. -/
def symS : SymbolInformation Unit :=
  .mk "S" none () [.mk "T" none () []]

/-- Fixture: geometry in which every range contains every position. -/
def alwaysContains : Unit → Unit → Bool := fun _ _ => true

/-! ### Injectivity of decimal rendering

The dedupe loop's candidates are pairwise distinct because `Nat.repr` is
injective.  The core implementation threads fuel through `Nat.toDigitsCore`;
it is related here to a fuel-free digit-list function, which is proved
injective. -/

/-- Big-endian decimal digit characters of a natural number. -/
def decDigits (n : Nat) : List Char :=
  if h : n < 10 then [Nat.digitChar n]
  else decDigits (n / 10) ++ [Nat.digitChar (n % 10)]
decreasing_by
  exact Nat.div_lt_self (by omega) (by omega)

/-! ### TreeElement.getElementById (source lines 34-45) -/

mutual
/-- Depth-first search from an element, matching by exact id equality
(source lines 34-45); the element itself is checked before its subtrees. -/
def TreeElement.getElementById (id : String) :
    OutlineElement Rng → Option (OutlineElement Rng)
  | .mk eid p sym sc cs =>
    if eid = id then some (.mk eid p sym sc cs)
    else TreeElement.getElementByIdIn id cs

/-- The for-in loop of getElementById over a children map (source lines
38-43): the first truthy recursive result wins. -/
def TreeElement.getElementByIdIn (id : String) :
    List (String × OutlineElement Rng) → Option (OutlineElement Rng)
  | [] => none
  | (_, c) :: rest =>
    match TreeElement.getElementById id c with
    | some candidate => some candidate
    | none => TreeElement.getElementByIdIn id rest
end

/-! ### OutlineGroup.updateMatches (source lines 75-96) -/

/-- Read the match value of a score (component 0).  The source reads
`score[0]` only on scores known to be truthy; `none` defaults to 0 here. -/
def matchValue : Option FuzzyScore → Int
  | some s => s.1
  | none => 0

/-- Source line 84: promote the item to top match when its score is truthy
and either there is no current top match or the item's match value strictly
exceeds the current top match's. -/
def considerTopMatch (item : OutlineElement Rng)
    (topMatch : Option (OutlineElement Rng)) : Option (OutlineElement Rng) :=
  match item.score, topMatch with
  | none, _ => topMatch
  | some _, none => some item
  | some s, some t => if s.1 > matchValue t.score then some item else topMatch

mutual
/-- Recursive matcher (source lines 82-96): set the item's score from the
fuzzy scorer, maybe promote the item to top match, recurse into every child
threading the accumulator, and force the truthy sentinel `[0, []]` onto a
scoreless item as soon as an updated child carries a truthy score.  The
source mutates the item in place and returns the accumulator; here the
updated item is returned alongside.  A promoted top match is the item as it
stands at promotion time (own score set, children not yet updated); its id,
symbol and score fields agree with the source's finally-mutated object,
which are the fields read from it afterwards. -/
def OutlineGroup._updateMatches (fs : String → String → Option FuzzyScore)
    (pattern : String) :
    OutlineElement Rng → Option (OutlineElement Rng) →
    OutlineElement Rng × Option (OutlineElement Rng)
  | .mk id par sym _ cs, topMatch =>
    let sc := fs pattern sym.name
    let topMatch1 := considerTopMatch (.mk id par sym sc cs) topMatch
    match OutlineGroup._updateMatchesChildren fs pattern sc cs topMatch1 with
    | (finalScore, cs', topMatch2) => (.mk id par sym finalScore cs', topMatch2)

/-- The child loop of the recursive matcher (source lines 87-94), threading
the parent's score (for the sentinel rule) and the accumulator. -/
def OutlineGroup._updateMatchesChildren (fs : String → String → Option FuzzyScore)
    (pattern : String) :
    Option FuzzyScore → List (String × OutlineElement Rng) →
    Option (OutlineElement Rng) →
    Option FuzzyScore × List (String × OutlineElement Rng) × Option (OutlineElement Rng)
  | itemScore, [], topMatch => (itemScore, [], topMatch)
  | itemScore, (k, c) :: rest, topMatch =>
    match OutlineGroup._updateMatches fs pattern c topMatch with
    | (c', topMatch') =>
      let itemScore' :=
        if itemScore.isNone && c'.score.isSome then some ((0 : Int), ([] : List Nat))
        else itemScore
      match OutlineGroup._updateMatchesChildren fs pattern itemScore' rest topMatch' with
      | (finalScore, rest', topMatch'') => (finalScore, (k, c') :: rest', topMatch'')
end

/-- The for-in loop of the group entry point (source lines 76-78). -/
def OutlineGroup.updateMatchesIn (fs : String → String → Option FuzzyScore)
    (pattern : String) :
    List (String × OutlineElement Rng) → Option (OutlineElement Rng) →
    List (String × OutlineElement Rng) × Option (OutlineElement Rng)
  | [], topMatch => ([], topMatch)
  | (k, c) :: rest, topMatch =>
    match OutlineGroup._updateMatches fs pattern c topMatch with
    | (c', topMatch') =>
      match OutlineGroup.updateMatchesIn fs pattern rest topMatch' with
      | (rest', topMatch'') => ((k, c') :: rest', topMatch'')

/-- Entry point updateMatches of a group (source lines 75-80): fold the
recursive matcher over every direct child. -/
def OutlineGroup.updateMatches (fs : String → String → Option FuzzyScore)
    (pattern : String) (g : OutlineGroup Rng)
    (topMatch : Option (OutlineElement Rng)) :
    OutlineGroup Rng × Option (OutlineElement Rng) :=
  match OutlineGroup.updateMatchesIn fs pattern g.children topMatch with
  | (cs', topMatch') => ({ g with children := cs' }, topMatch')

/-! ### OutlineGroup.getItemEnclosingPosition (source lines 98-111) -/

/-- The range tested for enclosure (source line 105): the defining range,
falling back to the location range when no defining range is set. -/
def testedRange (sym : SymbolInformation Rng) : Rng :=
  sym.definingRange.getD sym.locationRange

/-- Source lines 102-111: scan the children in map order; skip children
whose tested range does not contain the position; at the first child that
does, answer from that child's subtree, falling back to the child itself. -/
def OutlineGroup._getItemEnclosingPosition (contains : Rng → Pos → Bool)
    (position : Pos) :
    List (String × OutlineElement Rng) → Option (OutlineElement Rng)
  | [] => none
  | (_, .mk id par sym sc cs) :: rest =>
    if !(contains (testedRange sym) position) then
      OutlineGroup._getItemEnclosingPosition contains position rest
    else
      match OutlineGroup._getItemEnclosingPosition contains position cs with
      | some r => some r
      | none => some (.mk id par sym sc cs)

/-- Entry point of the group enclosure lookup (source lines 98-100). -/
def OutlineGroup.getItemEnclosingPosition (contains : Rng → Pos → Bool)
    (position : Pos) (g : OutlineGroup Rng) : Option (OutlineElement Rng) :=
  OutlineGroup._getItemEnclosingPosition contains position g.children

/-! ### The fetch cycle (source lines 139-185) -/

/-- Rendering of isFalsyOrEmpty on the provider result: absent (undefined
or null) or of length zero. -/
def isFalsyOrEmpty (result : Option (List α)) : Bool :=
  match result with
  | none => true
  | some l => l.isEmpty

/-- Outcome of one provider call: a resolved (possibly absent or empty)
symbol list, or a rejected promise. -/
inductive ProviderOutcome (Rng : Type) : Type where
  | success : Option (List (SymbolInformation Rng)) → ProviderOutcome Rng
  | failure : ProviderOutcome Rng

mutual
/-- _makeOutlineElement (source lines 176-185): allocate an id against the
container's current children, build the element (carrying the symbol and
the default truthy score `[0, []]`), recursively convert the nested symbols
into the element, then append the element to the container's children
keyed by its own id. -/
def OutlineModel._makeOutlineElement (info : SymbolInformation Rng)
    (containerId : String) (containerRef : ParentRef)
    (containerChildren : List (String × OutlineElement Rng)) :
    List (String × OutlineElement Rng) :=
  match info with
  | .mk nm dr lr childInfos =>
    let id := TreeElement.findId nm containerId (containerChildren.map Prod.fst)
    let resChildren := OutlineModel._makeOutlineElements childInfos id (.element id) []
    containerChildren ++
      [(id, .mk id containerRef (.mk nm dr lr childInfos) (some (0, [])) resChildren)]

/-- The conversion loop over a list of sibling symbols (source lines
147-149 and 179-183), accumulating the container's children. -/
def OutlineModel._makeOutlineElements (infos : List (SymbolInformation Rng))
    (containerId : String) (containerRef : ParentRef)
    (acc : List (String × OutlineElement Rng)) :
    List (String × OutlineElement Rng) :=
  match infos with
  | [] => acc
  | info :: rest =>
    OutlineModel._makeOutlineElements rest containerId containerRef
      (OutlineModel._makeOutlineElement info containerId containerRef acc)
end

/-- The per-provider continuation (source lines 145-157): on success with a
non-empty result convert each symbol into the group; on a falsy or empty
result do nothing; on rejection swallow the error and keep the group as it
is.  Either way the resulting group is what gets recorded into `_groups`,
and no error escapes to the caller. -/
def OutlineModel.fillGroup (oc : ProviderOutcome Rng) (g : OutlineGroup Rng) :
    OutlineGroup Rng :=
  match oc with
  | .failure => g
  | .success result =>
    if isFalsyOrEmpty result then g
    else
      { g with children :=
          OutlineModel._makeOutlineElements (result.getD []) g.id (.group g.id) g.children }

/-- Creation and filling of the group for the provider of the given rank
(source lines 142-157).  The group id is allocated against the model's
children, which are empty whenever a request is issued. -/
def OutlineModel.makeGroup (oc : ProviderOutcome Rng) (index : Nat) :
    String × OutlineGroup Rng :=
  let id := TreeElement.findId ("provider_" ++ Nat.repr index) "root" []
  (id, OutlineModel.fillGroup oc
    { id := id, parent := .model, providerIndex := index, children := [] })

/-- All per-provider chains settle, recording one group per provider into
`_groups` (source lines 140-158).  The source records groups in
promise-settlement order; cooperative scheduling makes that a permutation
of provider order, and no property proved here depends on that order. -/
def OutlineModel.collectGroups (ocs : List (ProviderOutcome Rng)) :
    List (String × OutlineGroup Rng) :=
  ocs.enum.map fun p => OutlineModel.makeGroup p.2 p.1

/-- Reparent a child to the model (source line 170, child.parent = this). -/
def setParentModel : OutlineElement Rng → OutlineElement Rng
  | .mk id _ sym sc cs => .mk id .model sym sc cs

/-- The join continuation (source lines 160-173).  When `_groups` has size
other than one the groups are exposed as `children` verbatim; with exactly
one group, every child of that sole group is reparented to the model and
exposed under its own id (the group level disappears from the presented
tree).  The source reparents the shared child objects in place, so the
reparenting is visible through the group's own children map as well; the
`_groups` returned reflect that aliasing. -/
def OutlineModel.finishRequest :
    List (String × OutlineGroup Rng) → OutlineModelState Rng
  | [(gid, g)] =>
    let adopted := g.children.map fun kc => (kc.1, setParentModel kc.2)
    { _groups := [(gid, { g with children := adopted })],
      children := adopted.map fun kc => (kc.2.id, ModelChild.element kc.2) }
  | groups =>
    { _groups := groups, children := groups.map fun kg => (kg.1, ModelChild.group kg.2) }

/-- One whole fetch cycle (source lines 139-174), as a function of the
providers' outcomes. -/
def OutlineModel.makeRequest (ocs : List (ProviderOutcome Rng)) :
    OutlineModelState Rng :=
  OutlineModel.finishRequest (OutlineModel.collectGroups ocs)

/-! ### Model-wide queries (source lines 187-203) -/

/-- The for-in loop of the model updateMatches over `_groups` (source lines
189-191), threading one accumulator across all groups. -/
def OutlineModel.updateMatchesGroups (fs : String → String → Option FuzzyScore)
    (pattern : String) :
    List (String × OutlineGroup Rng) → Option (OutlineElement Rng) →
    List (String × OutlineGroup Rng) × Option (OutlineElement Rng)
  | [], topMatch => ([], topMatch)
  | (k, g) :: rest, topMatch =>
    match OutlineGroup.updateMatches fs pattern g topMatch with
    | (g', topMatch') =>
      match OutlineModel.updateMatchesGroups fs pattern rest topMatch' with
      | (rest', topMatch'') => ((k, g') :: rest', topMatch'')

/-- updateMatches of the model (source lines 187-193): iterate `_groups`
with an initially empty accumulator.  The source mutates scores in place;
the updated groups are returned alongside the best match. -/
def OutlineModel.updateMatches (fs : String → String → Option FuzzyScore)
    (s : OutlineModelState Rng) (pattern : String) :
    List (String × OutlineGroup Rng) × Option (OutlineElement Rng) :=
  OutlineModel.updateMatchesGroups fs pattern s._groups none

/-- The for-in loop of the model enclosure lookup over `_groups` (source
lines 196-201): the first truthy per-group result wins. -/
def OutlineModel.getItemEnclosingPositionGroups (contains : Rng → Pos → Bool)
    (position : Pos) :
    List (String × OutlineGroup Rng) → Option (OutlineElement Rng)
  | [] => none
  | (_, g) :: rest =>
    match OutlineGroup.getItemEnclosingPosition contains position g with
    | some result => some result
    | none => OutlineModel.getItemEnclosingPositionGroups contains position rest

/-- getItemEnclosingPosition of the model (source lines 195-203): delegate
to each group in turn. -/
def OutlineModel.getItemEnclosingPosition (contains : Rng → Pos → Bool)
    (s : OutlineModelState Rng) (position : Pos) : Option (OutlineElement Rng) :=
  OutlineModel.getItemEnclosingPositionGroups contains position s._groups

/-! ### Refresh and cancellation (source lines 128-137)

Modelled from the spec: the cancellation semantics of the promise library
(vs/base/common/winjs.base, which is not among the sources under study).
The spec states that "a cancelled cycle simply never applies its results"
and that a cancelled cycle's continuation "must not execute or must execute
without observable effect on model state".  A fetch cycle is identified by
the generation current when it was started; refresh cancels the in-flight
cycle by advancing the generation, and a cycle's completion applies its
results only while its generation is still current. -/

/-- An outline model together with the generation of its current fetch
cycle (the handle on the in-flight request). -/
structure AsyncOutlineModel (Rng : Type) : Type where
  generation : Nat
  state : OutlineModelState Rng

/-- refresh (source lines 132-137): cancel the in-flight cycle, clear
`_groups` and `children`, and start a new cycle at the next generation. -/
def AsyncOutlineModel.refresh (m : AsyncOutlineModel Rng) : AsyncOutlineModel Rng :=
  { generation := m.generation + 1, state := { _groups := [], children := [] } }

/-- Completion of the fetch cycle started at `cycleGeneration` with the
given provider outcomes.  Modelled from the spec: a cancelled cycle (one
whose generation is no longer current) does not apply its results. -/
def AsyncOutlineModel.completeCycle (m : AsyncOutlineModel Rng)
    (cycleGeneration : Nat) (ocs : List (ProviderOutcome Rng)) :
    AsyncOutlineModel Rng :=
  if cycleGeneration = m.generation then
    { m with state := OutlineModel.makeRequest ocs }
  else m

/-- Fixture: a provider outcome delivering the single symbol S. -/
def c10oc : ProviderOutcome Unit := .success (some [symS])

/-- Fixture: the converted nested element for T. -/
def c10T : OutlineElement Unit :=
  .mk "rootprovider_0ST" (.element "rootprovider_0S") (.mk "T" none () [])
    (some (0, [])) []

/-- Fixture: the converted and adopted element for S (parent the model). -/
def c10S : OutlineElement Unit :=
  .mk "rootprovider_0S" ParentRef.model symS (some (0, []))
    [("rootprovider_0ST", c10T)]

/-! ### Specification-side functions used to state the claims -/

mutual
/-- Pre-order listing of an element and its descendants. -/
def elementPreorder : OutlineElement Rng → List (OutlineElement Rng)
  | .mk id par sym sc cs => .mk id par sym sc cs :: elementsPreorder cs

/-- Pre-order listing of the subtrees of a children map. -/
def elementsPreorder :
    List (String × OutlineElement Rng) → List (OutlineElement Rng)
  | [] => []
  | (_, c) :: rest => elementPreorder c ++ elementsPreorder rest
end

/-- Whether the pattern matches the element's own name or any
descendant's. -/
def subtreeMatches (fs : String → String → Option FuzzyScore) (pattern : String)
    (e : OutlineElement Rng) : Bool :=
  (elementPreorder e).any fun x => (fs pattern x.symbol.name).isSome

/-- The score the matcher is specified to leave on a node: the node's own
fuzzy score when its name matches; the truthy sentinel `[0, []]` when its
own name does not match but some descendant's does; empty otherwise. -/
def expectedScore (fs : String → String → Option FuzzyScore) (pattern : String)
    (e : OutlineElement Rng) : Option FuzzyScore :=
  match fs pattern e.symbol.name with
  | some s => some s
  | none =>
    if e.children.any (fun kc => subtreeMatches fs pattern kc.2) then some (0, [])
    else none

mutual
/-- A tree with every node's score replaced by its specified final score. -/
def applyScores (fs : String → String → Option FuzzyScore) (pattern : String) :
    OutlineElement Rng → OutlineElement Rng
  | .mk id par sym sc cs =>
    .mk id par sym (expectedScore fs pattern (.mk id par sym sc cs))
      (applyScoresIn fs pattern cs)

/-- applyScores over a children map. -/
def applyScoresIn (fs : String → String → Option FuzzyScore) (pattern : String) :
    List (String × OutlineElement Rng) → List (String × OutlineElement Rng)
  | [] => []
  | (k, c) :: rest => (k, applyScores fs pattern c) :: applyScoresIn fs pattern rest
end

/-- The snapshot of an element at top-match promotion time: own score set,
children as before the call. -/
def matchSnapshot (fs : String → String → Option FuzzyScore) (pattern : String) :
    OutlineElement Rng → OutlineElement Rng
  | .mk id par sym _ cs => .mk id par sym (fs pattern sym.name) cs

/-- The elements among the presented top-level children of the model. -/
def presentedElements (s : OutlineModelState Rng) :
    List (String × OutlineElement Rng) :=
  s.children.filterMap fun kc =>
    match kc.2 with
    | .element c => some (kc.1, c)
    | .group _ => none

/-- Pre-order snapshots, in visit order, of every element of a forest that
the matcher promotes into the accumulator comparison. -/
def visitSnapshots (fs : String → String → Option FuzzyScore) (pattern : String)
    (cs : List (String × OutlineElement Rng)) : List (OutlineElement Rng) :=
  (elementsPreorder cs).map (matchSnapshot fs pattern)

/-- The value of a parent's score after its child loop: unchanged when
already truthy, the sentinel when some child's subtree matches, unchanged
(empty) otherwise. -/
def threadScore (fs : String → String → Option FuzzyScore) (pattern : String)
    (sc : Option FuzzyScore) (cs : List (String × OutlineElement Rng)) :
    Option FuzzyScore :=
  if sc.isSome then sc
  else if cs.any (fun kc => subtreeMatches fs pattern kc.2) then some (0, [])
  else sc

/-- Folding the top-match comparison of source line 84 over a list of
candidate elements. -/
def foldTopMatch (cands : List (OutlineElement Rng))
    (tm : Option (OutlineElement Rng)) : Option (OutlineElement Rng) :=
  cands.foldl (fun t x => considerTopMatch x t) tm

/-- Keep the better of a current best and a further candidate, displacing
the current best only on a strictly greater match value. -/
def pickBest (best y : OutlineElement Rng) : OutlineElement Rng :=
  if matchValue y.score > matchValue best.score then y else best

/-- The first element of a list attaining the maximal match value (ties are
kept in favour of the earlier element). -/
def firstMax : List (OutlineElement Rng) → Option (OutlineElement Rng)
  | [] => none
  | x :: xs => some (xs.foldl pickBest x)

/-- Snapshots, in visit order, of every element the model-wide matcher
visits: the groups' forests in `_groups` order. -/
def modelSnapshots (fs : String → String → Option FuzzyScore) (pattern : String)
    (gs : List (String × OutlineGroup Rng)) : List (OutlineElement Rng) :=
  (gs.map fun kg => visitSnapshots fs pattern kg.2.children).join

/-- The visited snapshots whose own name matches the pattern (truthy
score). -/
def matchersOf (fs : String → String → Option FuzzyScore) (pattern : String)
    (gs : List (String × OutlineGroup Rng)) : List (OutlineElement Rng) :=
  (modelSnapshots fs pattern gs).filter fun e => e.score.isSome

theorem decDigits_of_lt {n : Nat} (h : n < 10) : decDigits n = [Nat.digitChar n] := by
  rw [decDigits]
  simp [h]

theorem decDigits_of_ge {n : Nat} (h : ¬ n < 10) :
    decDigits n = decDigits (n / 10) ++ [Nat.digitChar (n % 10)] := by
  conv_lhs => rw [decDigits]
  simp [h]

theorem decDigits_ne_nil (n : Nat) : decDigits n ≠ [] := by
  by_cases h : n < 10
  · rw [decDigits_of_lt h]
    simp
  · rw [decDigits_of_ge h]
    simp

theorem toDigitsCore_eq_decDigits :
    ∀ fuel n ds, n ≤ fuel → Nat.toDigitsCore 10 (fuel + 1) n ds = decDigits n ++ ds := by
  intro fuel
  induction fuel with
  | zero =>
    intro n ds hn
    interval_cases n
    simp [Nat.toDigitsCore, decDigits_of_lt]
  | succ f ih =>
    intro n ds hn
    rw [Nat.toDigitsCore]
    by_cases h0 : n / 10 = 0
    · have hlt : n < 10 := by omega
      simp only [h0, if_true, if_pos]
      rw [decDigits_of_lt hlt, Nat.mod_eq_of_lt hlt]
      simp
    · have h10 : 10 ≤ n := by
        by_contra hc
        exact h0 (Nat.div_eq_of_lt (by omega))
      simp only [h0, if_neg, if_false]
      rw [ih (n / 10) _ (by omega)]
      rw [decDigits_of_ge (by omega : ¬ n < 10)]
      simp

theorem repr_eq_decDigits (n : Nat) : Nat.repr n = (decDigits n).asString := by
  show (Nat.toDigits 10 n).asString = _
  unfold Nat.toDigits
  rw [toDigitsCore_eq_decDigits n n [] (Nat.le_refl n)]
  simp

theorem digitChar_inj :
    ∀ a, a < 10 → ∀ b, b < 10 → Nat.digitChar a = Nat.digitChar b → a = b := by
  decide

theorem decDigits_inj : ∀ m n, decDigits m = decDigits n → m = n := by
  intro m
  induction m using Nat.strong_induction_on with
  | _ m ih =>
    intro n h
    by_cases hm : m < 10 <;> by_cases hn : n < 10
    · rw [decDigits_of_lt hm, decDigits_of_lt hn] at h
      exact digitChar_inj m hm n hn (List.cons.injEq .. ▸ h).1
    · rw [decDigits_of_lt hm, decDigits_of_ge hn] at h
      have := congrArg List.length h
      simp at this
      exact absurd this (decDigits_ne_nil (n / 10))
    · rw [decDigits_of_ge hm, decDigits_of_lt hn] at h
      have := congrArg List.length h
      simp at this
      exact absurd this (decDigits_ne_nil (m / 10))
    · rw [decDigits_of_ge hm, decDigits_of_ge hn] at h
      have hrev := congrArg List.reverse h
      simp only [List.reverse_append, List.reverse_cons, List.reverse_nil,
        List.nil_append, List.singleton_append, List.cons.injEq] at hrev
      have hd : m % 10 = n % 10 :=
        digitChar_inj _ (Nat.mod_lt _ (by omega)) _ (Nat.mod_lt _ (by omega)) hrev.1
      have ht : decDigits (m / 10) = decDigits (n / 10) :=
        List.reverse_injective hrev.2
      have hq : m / 10 = n / 10 :=
        ih (m / 10) (Nat.div_lt_self (by omega) (by omega)) _ ht
      omega

theorem repr_inj : ∀ m n : Nat, Nat.repr m = Nat.repr n → m = n := by
  intro m n h
  rw [repr_eq_decDigits, repr_eq_decDigits] at h
  apply decDigits_inj
  have : ((decDigits m).asString).data = ((decDigits n).asString).data := by rw [h]
  simpa [List.asString] using this

theorem string_append_cancel (base s t : String) :
    base ++ s = base ++ t → s = t := by
  intro h
  cases base with
  | mk bd =>
    cases s with
    | mk sd =>
      cases t with
      | mk td =>
        have : bd ++ sd = bd ++ td := congrArg String.data h
        have := List.append_cancel_left this
        simp [this]

/-- The candidate strings tried by the dedupe loop are pairwise distinct. -/
theorem candidate_inj (base : String) :
    ∀ i j : Nat, base ++ Nat.repr i = base ++ Nat.repr j → i = j := by
  intro i j h
  exact repr_inj i j (string_append_cancel base _ _ h)

/-- Pigeonhole: a window of more candidates than keys contains a free one. -/
theorem exists_free_candidate (base : String) (keys : List String)
    (i fuel : Nat) (hfuel : keys.length < fuel) :
    ∃ j, i ≤ j ∧ j < i + fuel ∧ (base ++ Nat.repr j) ∉ keys := by
  by_contra hall
  push_neg at hall
  have hsub : ∀ x ∈ (List.range' i fuel).map (fun j => base ++ Nat.repr j), x ∈ keys := by
    intro x hx
    rcases List.mem_map.1 hx with ⟨j, hj, rfl⟩
    rcases List.mem_range'_1.1 hj with ⟨h1, h2⟩
    exact hall j h1 h2
  have hnodup : ((List.range' i fuel).map (fun j => base ++ Nat.repr j)).Nodup := by
    refine List.Nodup.map ?_ (List.nodup_range' i fuel)
    intro a b hab
    exact candidate_inj base a b hab
  have hlen : ((List.range' i fuel).map (fun j => base ++ Nat.repr j)).length ≤ keys.length := by
    have h1 : ((List.range' i fuel).map (fun j => base ++ Nat.repr j)).toFinset.card
        = ((List.range' i fuel).map (fun j => base ++ Nat.repr j)).length :=
      List.toFinset_card_of_nodup hnodup
    have h2 : ((List.range' i fuel).map (fun j => base ++ Nat.repr j)).toFinset ⊆
        keys.toFinset := by
      intro x hx
      exact List.mem_toFinset.2 (hsub x (List.mem_toFinset.1 hx))
    calc ((List.range' i fuel).map (fun j => base ++ Nat.repr j)).length
        = _ := h1.symm
      _ ≤ keys.toFinset.card := Finset.card_le_card h2
      _ ≤ keys.length := List.toFinset_card_le keys
  simp [List.length_range'] at hlen
  omega

theorem findIdGo_not_mem (base : String) (keys : List String) :
    ∀ fuel i, (∃ j, i ≤ j ∧ j < i + fuel ∧ (base ++ Nat.repr j) ∉ keys) →
    findIdGo base keys fuel i ∉ keys := by
  intro fuel
  induction fuel with
  | zero =>
    intro i ⟨j, h1, h2, _⟩
    omega
  | succ f ih =>
    intro i ⟨j, h1, h2, h3⟩
    rw [findIdGo]
    by_cases hmem : (base ++ Nat.repr i) ∈ keys
    · simp only [hmem, if_pos]
      apply ih
      refine ⟨j, ?_, by omega, h3⟩
      rcases Nat.eq_or_lt_of_le h1 with rfl | hlt
      · exact absurd hmem h3
      · omega
    · simpa [hmem] using hmem

/-- The id returned by findId is never a current key. -/
theorem findId_not_mem (candidate containerId : String) (keys : List String) :
    TreeElement.findId candidate containerId keys ∉ keys := by
  unfold TreeElement.findId
  by_cases hmem : (containerId ++ candidate) ∈ keys
  · simp only [hmem, if_pos]
    apply findIdGo_not_mem
    rcases exists_free_candidate (containerId ++ candidate) keys 1 (keys.length + 1)
      (by omega) with ⟨j, h1, h2, h3⟩
    exact ⟨j, h1, h2, h3⟩
  · simpa [hmem] using hmem

/-! ### Basic facts about the embedding -/

@[simp] theorem OutlineElement.id_mk (i : String) (p : ParentRef)
    (sym : SymbolInformation Rng) (sc : Option FuzzyScore)
    (cs : List (String × OutlineElement Rng)) :
    (OutlineElement.mk i p sym sc cs).id = i := rfl

@[simp] theorem OutlineElement.parent_mk (i : String) (p : ParentRef)
    (sym : SymbolInformation Rng) (sc : Option FuzzyScore)
    (cs : List (String × OutlineElement Rng)) :
    (OutlineElement.mk i p sym sc cs).parent = p := rfl

@[simp] theorem OutlineElement.symbol_mk (i : String) (p : ParentRef)
    (sym : SymbolInformation Rng) (sc : Option FuzzyScore)
    (cs : List (String × OutlineElement Rng)) :
    (OutlineElement.mk i p sym sc cs).symbol = sym := rfl

@[simp] theorem OutlineElement.score_mk (i : String) (p : ParentRef)
    (sym : SymbolInformation Rng) (sc : Option FuzzyScore)
    (cs : List (String × OutlineElement Rng)) :
    (OutlineElement.mk i p sym sc cs).score = sc := rfl

@[simp] theorem OutlineElement.children_mk (i : String) (p : ParentRef)
    (sym : SymbolInformation Rng) (sc : Option FuzzyScore)
    (cs : List (String × OutlineElement Rng)) :
    (OutlineElement.mk i p sym sc cs).children = cs := rfl

@[simp] theorem SymbolInformation.name_mk (nm : String) (dr : Option Rng)
    (lr : Rng) (cs : List (SymbolInformation Rng)) :
    (SymbolInformation.mk nm dr lr cs).name = nm := rfl

@[simp] theorem SymbolInformation.childSyms_mk (nm : String) (dr : Option Rng)
    (lr : Rng) (cs : List (SymbolInformation Rng)) :
    (SymbolInformation.mk nm dr lr cs).children = cs := rfl

@[simp] theorem elementPreorder_mk (i : String) (p : ParentRef)
    (sym : SymbolInformation Rng) (sc : Option FuzzyScore)
    (cs : List (String × OutlineElement Rng)) :
    elementPreorder (.mk i p sym sc cs) = .mk i p sym sc cs :: elementsPreorder cs := rfl

theorem elementsPreorder_cons (k : String) (c : OutlineElement Rng)
    (rest : List (String × OutlineElement Rng)) :
    elementsPreorder ((k, c) :: rest) = elementPreorder c ++ elementsPreorder rest := rfl

theorem elementsPreorder_append (a b : List (String × OutlineElement Rng)) :
    elementsPreorder (a ++ b) = elementsPreorder a ++ elementsPreorder b := by
  induction a with
  | nil => simp [elementsPreorder]
  | cons kc rest ih =>
    match kc with
    | (k, c) => simp [elementsPreorder, ih]

theorem elementsPreorder_any (f : OutlineElement Rng → Bool) :
    ∀ cs : List (String × OutlineElement Rng),
      (elementsPreorder cs).any f = cs.any fun kc => (elementPreorder kc.2).any f := by
  intro cs
  induction cs with
  | nil => simp [elementsPreorder]
  | cons kc rest ih =>
    match kc with
    | (k, c) => simp [elementsPreorder, ih]

theorem subtreeMatches_unfold (fs : String → String → Option FuzzyScore)
    (pattern : String) (e : OutlineElement Rng) :
    subtreeMatches fs pattern e =
      ((fs pattern e.symbol.name).isSome ||
        e.children.any fun kc => subtreeMatches fs pattern kc.2) := by
  match e with
  | .mk i p sym sc cs =>
    show (elementPreorder (.mk i p sym sc cs)).any _ = _
    rw [elementPreorder_mk]
    simp only [List.any_cons, OutlineElement.symbol_mk, OutlineElement.children_mk]
    congr 1
    exact elementsPreorder_any _ cs

theorem applyScores_mk (fs : String → String → Option FuzzyScore) (pattern : String)
    (i : String) (p : ParentRef) (sym : SymbolInformation Rng)
    (sc : Option FuzzyScore) (cs : List (String × OutlineElement Rng)) :
    applyScores fs pattern (.mk i p sym sc cs) =
      .mk i p sym (expectedScore fs pattern (.mk i p sym sc cs))
        (applyScoresIn fs pattern cs) := by
  rw [applyScores]

theorem applyScores_score (fs : String → String → Option FuzzyScore)
    (pattern : String) (e : OutlineElement Rng) :
    (applyScores fs pattern e).score = expectedScore fs pattern e := by
  match e with
  | .mk i p sym sc cs => rw [applyScores_mk]; rfl

theorem expectedScore_isSome (fs : String → String → Option FuzzyScore)
    (pattern : String) (e : OutlineElement Rng) :
    (expectedScore fs pattern e).isSome = subtreeMatches fs pattern e := by
  rw [subtreeMatches_unfold, expectedScore]
  match h : fs pattern e.symbol.name with
  | some s => simp
  | none =>
    simp only [Option.isSome_none, Bool.false_or]
    by_cases hc : e.children.any fun kc => subtreeMatches fs pattern kc.2 <;> simp [hc]

theorem expectedScore_eq_threadScore (fs : String → String → Option FuzzyScore)
    (pattern : String) (i : String) (p : ParentRef) (sym : SymbolInformation Rng)
    (sc : Option FuzzyScore) (cs : List (String × OutlineElement Rng)) :
    expectedScore fs pattern (.mk i p sym sc cs) =
      threadScore fs pattern (fs pattern sym.name) cs := by
  rw [expectedScore, threadScore]
  match h : fs pattern sym.name with
  | some s => simp_all
  | none => simp_all

theorem threadScore_cons (fs : String → String → Option FuzzyScore)
    (pattern : String) (sc : Option FuzzyScore) (k : String)
    (c : OutlineElement Rng) (rest : List (String × OutlineElement Rng)) :
    threadScore fs pattern sc ((k, c) :: rest) =
      threadScore fs pattern
        (if sc.isNone && subtreeMatches fs pattern c then some (0, []) else sc) rest := by
  match sc with
  | some s => simp [threadScore]
  | none =>
    cases hc : subtreeMatches fs pattern c with
    | true => simp [threadScore, List.any_cons, hc]
    | false =>
      simp only [threadScore, List.any_cons]
      simp only [hc]
      rfl

theorem foldTopMatch_nil (tm : Option (OutlineElement Rng)) :
    foldTopMatch [] tm = tm := rfl

theorem foldTopMatch_cons (x : OutlineElement Rng) (xs : List (OutlineElement Rng))
    (tm : Option (OutlineElement Rng)) :
    foldTopMatch (x :: xs) tm = foldTopMatch xs (considerTopMatch x tm) := rfl

theorem foldTopMatch_append (a b : List (OutlineElement Rng))
    (tm : Option (OutlineElement Rng)) :
    foldTopMatch (a ++ b) tm = foldTopMatch b (foldTopMatch a tm) := by
  simp [foldTopMatch, List.foldl_append]

/-! ### Characterization of the recursive matcher -/

mutual
theorem updateMatchesElem_spec (fs : String → String → Option FuzzyScore)
    (pattern : String) (e : OutlineElement Rng) (tm : Option (OutlineElement Rng)) :
    OutlineGroup._updateMatches fs pattern e tm =
      (applyScores fs pattern e,
       foldTopMatch ((elementPreorder e).map (matchSnapshot fs pattern)) tm) := by
  match e with
  | .mk i p sym sc cs =>
    rw [OutlineGroup._updateMatches]
    rw [updateMatchesChildren_spec fs pattern (fs pattern sym.name) cs
      (considerTopMatch (.mk i p sym (fs pattern sym.name) cs) tm)]
    rw [applyScores_mk, expectedScore_eq_threadScore]
    simp only [elementPreorder_mk, List.map_cons, matchSnapshot, foldTopMatch_cons]
    rfl

theorem updateMatchesChildren_spec (fs : String → String → Option FuzzyScore)
    (pattern : String) (sc : Option FuzzyScore)
    (cs : List (String × OutlineElement Rng)) (tm : Option (OutlineElement Rng)) :
    OutlineGroup._updateMatchesChildren fs pattern sc cs tm =
      (threadScore fs pattern sc cs, applyScoresIn fs pattern cs,
       foldTopMatch (visitSnapshots fs pattern cs) tm) := by
  match cs with
  | [] =>
    rw [OutlineGroup._updateMatchesChildren]
    simp [threadScore, applyScoresIn, visitSnapshots, elementsPreorder, foldTopMatch]
  | (k, c) :: rest =>
    rw [OutlineGroup._updateMatchesChildren]
    rw [updateMatchesElem_spec fs pattern c tm]
    dsimp only
    rw [updateMatchesChildren_spec fs pattern
      (if (sc.isNone && (applyScores fs pattern c).score.isSome) = true then some (0, [])
       else sc) rest
      (foldTopMatch ((elementPreorder c).map (matchSnapshot fs pattern)) tm)]
    rw [threadScore_cons]
    simp only [applyScores_score, expectedScore_isSome, applyScoresIn]
    have hsnap : visitSnapshots fs pattern ((k, c) :: rest) =
        (elementPreorder c).map (matchSnapshot fs pattern) ++ visitSnapshots fs pattern rest := by
      simp [visitSnapshots, elementsPreorder_cons]
    rw [hsnap, foldTopMatch_append]
end

theorem updateMatchesIn_spec (fs : String → String → Option FuzzyScore)
    (pattern : String) :
    ∀ (cs : List (String × OutlineElement Rng)) (tm : Option (OutlineElement Rng)),
      OutlineGroup.updateMatchesIn fs pattern cs tm =
        (applyScoresIn fs pattern cs, foldTopMatch (visitSnapshots fs pattern cs) tm) := by
  intro cs
  induction cs with
  | nil =>
    intro tm
    rw [OutlineGroup.updateMatchesIn]
    simp [applyScoresIn, visitSnapshots, elementsPreorder, foldTopMatch]
  | cons kc rest ih =>
    intro tm
    match kc with
    | (k, c) =>
      rw [OutlineGroup.updateMatchesIn]
      rw [updateMatchesElem_spec fs pattern c tm]
      dsimp only
      rw [ih]
      have hsnap : visitSnapshots fs pattern ((k, c) :: rest) =
          (elementPreorder c).map (matchSnapshot fs pattern) ++ visitSnapshots fs pattern rest := by
        simp [visitSnapshots, elementsPreorder_cons]
      rw [hsnap, foldTopMatch_append]
      rfl

theorem groupUpdateMatches_spec (fs : String → String → Option FuzzyScore)
    (pattern : String) (g : OutlineGroup Rng) (tm : Option (OutlineElement Rng)) :
    OutlineGroup.updateMatches fs pattern g tm =
      ({ g with children := applyScoresIn fs pattern g.children },
       foldTopMatch (visitSnapshots fs pattern g.children) tm) := by
  rw [OutlineGroup.updateMatches, updateMatchesIn_spec]

theorem updateMatchesGroups_spec (fs : String → String → Option FuzzyScore)
    (pattern : String) :
    ∀ (gs : List (String × OutlineGroup Rng)) (tm : Option (OutlineElement Rng)),
      OutlineModel.updateMatchesGroups fs pattern gs tm =
        (gs.map fun kg => (kg.1, { kg.2 with children := applyScoresIn fs pattern kg.2.children }),
         foldTopMatch (modelSnapshots fs pattern gs) tm) := by
  intro gs
  induction gs with
  | nil =>
    intro tm
    rw [OutlineModel.updateMatchesGroups]
    simp [modelSnapshots, foldTopMatch]
  | cons kg rest ih =>
    intro tm
    match kg with
    | (k, g) =>
      rw [OutlineModel.updateMatchesGroups]
      rw [groupUpdateMatches_spec]
      dsimp only
      rw [ih]
      have hsnap : modelSnapshots fs pattern ((k, g) :: rest) =
          visitSnapshots fs pattern g.children ++ modelSnapshots fs pattern rest := by
        simp [modelSnapshots]
      rw [hsnap, foldTopMatch_append]
      rfl

theorem modelUpdateMatches_spec (fs : String → String → Option FuzzyScore)
    (s : OutlineModelState Rng) (pattern : String) :
    OutlineModel.updateMatches fs s pattern =
      (s._groups.map fun kg => (kg.1, { kg.2 with children := applyScoresIn fs pattern kg.2.children }),
       foldTopMatch (modelSnapshots fs pattern s._groups) none) := by
  rw [OutlineModel.updateMatches, updateMatchesGroups_spec]

/-! ### The accumulator fold: ties keep the earlier element -/

theorem considerTopMatch_of_score_none (x : OutlineElement Rng)
    (tm : Option (OutlineElement Rng)) (h : x.score = none) :
    considerTopMatch x tm = tm := by
  match x with
  | .mk i p sym sc cs =>
    simp only [OutlineElement.score_mk] at h
    subst h
    rfl

theorem considerTopMatch_of_score_some (x : OutlineElement Rng)
    (s : FuzzyScore) (h : x.score = some s) :
    (∀ t : Option (OutlineElement Rng), considerTopMatch x t =
      match t with
      | none => some x
      | some t' => if s.1 > matchValue t'.score then some x else some t') := by
  intro t
  match x with
  | .mk i p sym sc cs =>
    simp only [OutlineElement.score_mk] at h
    subst h
    match t with
    | none => rfl
    | some t' => rfl

theorem foldTopMatch_filter :
    ∀ (l : List (OutlineElement Rng)) (tm : Option (OutlineElement Rng)),
      foldTopMatch l tm = foldTopMatch (l.filter fun e => e.score.isSome) tm := by
  intro l
  induction l with
  | nil => intro tm; rfl
  | cons x xs ih =>
    intro tm
    match h : x.score with
    | none =>
      rw [foldTopMatch_cons, considerTopMatch_of_score_none x tm h]
      rw [ih]
      congr 1
      simp [List.filter_cons, h]
    | some s =>
      rw [foldTopMatch_cons, ih]
      have : (x :: xs).filter (fun e => e.score.isSome) =
          x :: xs.filter (fun e => e.score.isSome) := by
        simp [List.filter_cons, h]
      rw [this, foldTopMatch_cons]

theorem foldTopMatch_all_some :
    ∀ (xs : List (OutlineElement Rng)), (∀ y ∈ xs, y.score.isSome) →
      ∀ a : OutlineElement Rng, foldTopMatch xs (some a) = some (xs.foldl pickBest a) := by
  intro xs
  induction xs with
  | nil => intro _ a; rfl
  | cons y ys ih =>
    intro hall a
    rw [foldTopMatch_cons]
    match h : y.score with
    | none =>
      exact absurd (hall y (by simp)) (by simp [h])
    | some s =>
      rw [considerTopMatch_of_score_some y s h]
      have hstep : (match some a with
          | none => some y
          | some t' => if s.1 > matchValue t'.score then some y else some t') =
          some (pickBest a y) := by
        rw [pickBest]
        have : matchValue y.score = s.1 := by rw [h]; rfl
        rw [this]
        by_cases hgt : s.1 > matchValue a.score <;> simp [hgt]
      rw [hstep]
      rw [ih (fun z hz => hall z (by simp [hz])) (pickBest a y)]
      rfl

theorem foldTopMatch_none_eq_firstMax
    (l : List (OutlineElement Rng)) (hall : ∀ y ∈ l, y.score.isSome) :
    foldTopMatch l none = firstMax l := by
  match l with
  | [] => rfl
  | x :: xs =>
    rw [foldTopMatch_cons]
    match h : x.score with
    | none => exact absurd (hall x (by simp)) (by simp [h])
    | some s =>
      rw [considerTopMatch_of_score_some x s h]
      rw [foldTopMatch_all_some xs (fun z hz => hall z (by simp [hz])) x]
      rfl

theorem foldTopMatch_none_eq_none_iff :
    ∀ l : List (OutlineElement Rng),
      (foldTopMatch l none = none ↔ ∀ x ∈ l, x.score = none) := by
  intro l
  rw [foldTopMatch_filter]
  constructor
  · intro h x hx
    match hs : x.score with
    | none => rfl
    | some s =>
      exfalso
      have hmem : x ∈ l.filter (fun e => e.score.isSome) := by
        simp [List.mem_filter, hx, hs]
      match hfil : l.filter (fun e => e.score.isSome) with
      | [] => rw [hfil] at hmem; simp at hmem
      | y :: ys =>
        rw [hfil] at h
        rw [foldTopMatch_none_eq_firstMax] at h
        · rw [firstMax] at h
          simp at h
        · intro z hz
          have := List.of_mem_filter (hfil ▸ hz)
          exact this
  · intro h
    have : l.filter (fun e => e.score.isSome) = [] := by
      rw [List.filter_eq_nil]
      intro a ha
      simp [h a ha]
    rw [this]
    rfl

theorem foldl_pickBest_split :
    ∀ (xs : List (OutlineElement Rng)) (a : OutlineElement Rng),
      ∃ l₁ l₂, a :: xs = l₁ ++ (xs.foldl pickBest a) :: l₂ ∧
        (∀ x ∈ l₁, matchValue x.score < matchValue (xs.foldl pickBest a).score) ∧
        (∀ x ∈ l₂, matchValue x.score ≤ matchValue (xs.foldl pickBest a).score) := by
  intro xs
  induction xs with
  | nil =>
    intro a
    exact ⟨[], [], by simp, by simp, by simp⟩
  | cons y ys ih =>
    intro a
    have hfold : (y :: ys).foldl pickBest a = ys.foldl pickBest (pickBest a y) := by
      simp [List.foldl_cons]
    rcases ih (pickBest a y) with ⟨l₁, l₂, hsplit, hfront, hback⟩
    by_cases hgt : matchValue y.score > matchValue a.score
    · have hpb : pickBest a y = y := by simp [pickBest, hgt]
      rw [hpb] at hsplit hfront hback
      rw [hfold, hpb]
      refine ⟨a :: l₁, l₂, ?_, ?_, ?_⟩
      · rw [List.cons_append]
        exact congrArg (a :: ·) hsplit
      · intro x hx
        rcases List.mem_cons.1 hx with rfl | hx1
        · -- x is a; it precedes the head y, whose value already exceeds a's
          have hy : matchValue y.score ≤ matchValue (ys.foldl pickBest y).score := by
            rcases l₁ with _ | ⟨z, zs⟩
            · simp only [List.nil_append] at hsplit
              injection hsplit with h1 h2
              rw [← h1]
            · simp only [List.cons_append] at hsplit
              injection hsplit with h1 h2
              have := hfront z (by simp)
              rw [← h1] at this
              exact le_of_lt this
          exact lt_of_lt_of_le hgt hy
        · exact hfront x hx1
      · intro x hx
        exact hback x hx
    · have hpb : pickBest a y = a := by simp [pickBest, hgt]
      rw [hpb] at hsplit hfront hback
      rw [hfold, hpb]
      rcases l₁ with _ | ⟨z, zs⟩
      · simp only [List.nil_append] at hsplit
        injection hsplit with h1 h2
        refine ⟨[], y :: ys, ?_, by simp, ?_⟩
        · rw [List.nil_append, ← h1]
        · intro x hx
          rcases List.mem_cons.1 hx with rfl | hx1
          · rw [← h1]
            omega
          · exact hback x (h2 ▸ hx1)
      · simp only [List.cons_append] at hsplit
        injection hsplit with h1 h2
        refine ⟨a :: y :: zs, l₂, ?_, ?_, ?_⟩
        · rw [List.cons_append, List.cons_append]
          exact congrArg (fun t => a :: y :: t) h2
        · intro x hx
          have ha : matchValue a.score < matchValue (ys.foldl pickBest a).score := by
            have := hfront z (by simp)
            rw [← h1] at this
            exact this
          rcases List.mem_cons.1 hx with rfl | hx1
          · exact ha
          · rcases List.mem_cons.1 hx1 with rfl | hx2
            · omega
            · exact hfront x (by simp [hx2])
        · intro x hx
          exact hback x hx

/-- Characterization of the first-maximum pick: the list splits around the
returned element, everything before it scoring strictly lower and
everything after it scoring no higher. -/
theorem firstMax_split (l : List (OutlineElement Rng)) (e : OutlineElement Rng)
    (h : firstMax l = some e) :
    ∃ l₁ l₂, l = l₁ ++ e :: l₂ ∧
      (∀ x ∈ l₁, matchValue x.score < matchValue e.score) ∧
      (∀ x ∈ l₂, matchValue x.score ≤ matchValue e.score) := by
  match l with
  | [] => simp [firstMax] at h
  | x :: xs =>
    rw [firstMax] at h
    have he : xs.foldl pickBest x = e := by simpa using h
    rcases foldl_pickBest_split xs x with ⟨l₁, l₂, hsplit, hfront, hback⟩
    rw [he] at hsplit hfront hback
    exact ⟨l₁, l₂, hsplit, hfront, hback⟩

/-! ### getElementById is the first pre-order match -/

mutual
theorem getElementById_eq_find (id : String) (e : OutlineElement Rng) :
    TreeElement.getElementById id e =
      (elementPreorder e).find? (fun x => x.id == id) := by
  match e with
  | .mk eid p sym sc cs =>
    rw [TreeElement.getElementById, elementPreorder_mk]
    by_cases h : eid = id
    · rw [if_pos h, List.find?_cons_of_pos]
      simp [h]
    · rw [if_neg h, List.find?_cons_of_neg _ (by simp [h])]
      exact getElementByIdIn_eq_find id cs

theorem getElementByIdIn_eq_find (id : String)
    (cs : List (String × OutlineElement Rng)) :
    TreeElement.getElementByIdIn id cs =
      (elementsPreorder cs).find? (fun x => x.id == id) := by
  match cs with
  | [] => rfl
  | (k, c) :: rest =>
    rw [TreeElement.getElementByIdIn]
    rw [getElementById_eq_find id c, getElementByIdIn_eq_find id rest]
    rw [elementsPreorder_cons, List.find?_append]
    cases h : (elementPreorder c).find? (fun x => x.id == id) with
    | none => simp [Option.or]
    | some r => simp [Option.or]
end

/-! ### Scores after the matcher are exactly the specified ones -/

mutual
theorem subtreeMatches_applyScores (fs : String → String → Option FuzzyScore)
    (pattern : String) (e : OutlineElement Rng) :
    subtreeMatches fs pattern (applyScores fs pattern e) =
      subtreeMatches fs pattern e := by
  match e with
  | .mk i p sym sc cs =>
    rw [applyScores_mk]
    rw [subtreeMatches_unfold, subtreeMatches_unfold]
    simp only [OutlineElement.symbol_mk, OutlineElement.children_mk]
    congr 1
    exact anySubtree_applyScoresIn fs pattern cs

theorem anySubtree_applyScoresIn (fs : String → String → Option FuzzyScore)
    (pattern : String) (cs : List (String × OutlineElement Rng)) :
    ((applyScoresIn fs pattern cs).any fun kc => subtreeMatches fs pattern kc.2) =
      (cs.any fun kc => subtreeMatches fs pattern kc.2) := by
  match cs with
  | [] => rfl
  | (k, c) :: rest =>
    rw [applyScoresIn]
    simp only [List.any_cons]
    rw [subtreeMatches_applyScores fs pattern c, anySubtree_applyScoresIn fs pattern rest]
end

theorem expectedScore_applyScores (fs : String → String → Option FuzzyScore)
    (pattern : String) (e : OutlineElement Rng) :
    expectedScore fs pattern (applyScores fs pattern e) =
      expectedScore fs pattern e := by
  match e with
  | .mk i p sym sc cs =>
    rw [applyScores_mk]
    rw [expectedScore, expectedScore]
    simp only [OutlineElement.symbol_mk, OutlineElement.children_mk]
    match fs pattern sym.name with
    | some s => rfl
    | none =>
      have h := anySubtree_applyScoresIn fs pattern cs
      simp only [h]

mutual
theorem applyScores_preorder_correct (fs : String → String → Option FuzzyScore)
    (pattern : String) (e : OutlineElement Rng) :
    ∀ x ∈ elementPreorder (applyScores fs pattern e),
      x.score = expectedScore fs pattern x := by
  match e with
  | .mk i p sym sc cs =>
    intro x hx
    rw [applyScores_mk, elementPreorder_mk] at hx
    rcases List.mem_cons.1 hx with rfl | hx1
    · have h1 : (OutlineElement.mk i p sym
          (expectedScore fs pattern (.mk i p sym sc cs)) (applyScoresIn fs pattern cs)).score
          = expectedScore fs pattern (.mk i p sym sc cs) := rfl
      rw [h1]
      have h2 := expectedScore_applyScores fs pattern (.mk i p sym sc cs)
      rw [applyScores_mk] at h2
      exact h2.symm
    · exact applyScoresIn_preorder_correct fs pattern cs x hx1

theorem applyScoresIn_preorder_correct (fs : String → String → Option FuzzyScore)
    (pattern : String) (cs : List (String × OutlineElement Rng)) :
    ∀ x ∈ elementsPreorder (applyScoresIn fs pattern cs),
      x.score = expectedScore fs pattern x := by
  match cs with
  | [] => intro x hx; simp [applyScoresIn, elementsPreorder] at hx
  | (k, c) :: rest =>
    intro x hx
    rw [applyScoresIn, elementsPreorder_cons] at hx
    rcases List.mem_append.1 hx with hx1 | hx2
    · exact applyScores_preorder_correct fs pattern c x hx1
    · exact applyScoresIn_preorder_correct fs pattern rest x hx2
end

/-! ### Enclosure lookup -/

theorem enclosing_none_iff (contains : Rng → Pos → Bool) (position : Pos) :
    ∀ cs : List (String × OutlineElement Rng),
      (OutlineGroup._getItemEnclosingPosition contains position cs = none ↔
        ∀ kc ∈ cs, contains (testedRange kc.2.symbol) position = false) := by
  intro cs
  induction cs with
  | nil => simp [OutlineGroup._getItemEnclosingPosition]
  | cons kc rest ih =>
    match kc with
    | (k, .mk i p sym sc cs2) =>
      rw [OutlineGroup._getItemEnclosingPosition]
      cases h : contains (testedRange sym) position with
      | false =>
        simp only [h, Bool.not_false, if_pos]
        constructor
        · intro hrest kc1 hkc1
          rcases List.mem_cons.1 hkc1 with rfl | h1
          · exact h
          · exact (ih.1 hrest) kc1 h1
        · intro hall
          exact ih.2 fun kc1 h1 => hall kc1 (by simp [h1])
      | true =>
        simp only [h, Bool.not_true, if_neg, Bool.false_eq_true, not_false_eq_true]
        constructor
        · intro hcontra
          exfalso
          cases h2 : OutlineGroup._getItemEnclosingPosition contains position cs2 with
          | none => rw [h2] at hcontra; simp at hcontra
          | some r => rw [h2] at hcontra; simp at hcontra
        · intro hall
          exfalso
          have h1 := hall (k, .mk i p sym sc cs2) (by simp)
          dsimp only [OutlineElement.symbol_mk] at h1
          rw [h] at h1
          simp at h1

theorem enclosing_some_spec (contains : Rng → Pos → Bool) (position : Pos)
    (cs : List (String × OutlineElement Rng)) (e : OutlineElement Rng)
    (h : OutlineGroup._getItemEnclosingPosition contains position cs = some e) :
    contains (testedRange e.symbol) position = true ∧
    (∀ kc ∈ e.children, contains (testedRange kc.2.symbol) position = false) ∧
    e ∈ elementsPreorder cs := by
  match cs with
  | [] => simp [OutlineGroup._getItemEnclosingPosition] at h
  | (k, .mk i p sym sc cs2) :: rest =>
    rw [OutlineGroup._getItemEnclosingPosition] at h
    cases hc : contains (testedRange sym) position with
    | false =>
      rw [hc] at h
      simp only [Bool.not_false, if_pos] at h
      rcases enclosing_some_spec contains position rest e h with ⟨h1, h2, h3⟩
      refine ⟨h1, h2, ?_⟩
      rw [elementsPreorder_cons]
      exact List.mem_append.2 (Or.inr h3)
    | true =>
      rw [hc] at h
      simp only [Bool.not_true, if_neg, Bool.false_eq_true, not_false_eq_true] at h
      cases h2 : OutlineGroup._getItemEnclosingPosition contains position cs2 with
      | some r =>
        rw [h2] at h
        cases h
        rcases enclosing_some_spec contains position cs2 e h2 with ⟨h3, h4, h5⟩
        refine ⟨h3, h4, ?_⟩
        rw [elementsPreorder_cons]
        refine List.mem_append.2 (Or.inl ?_)
        rw [elementPreorder_mk]
        exact List.mem_cons.2 (Or.inr h5)
      | none =>
        rw [h2] at h
        cases h
        refine ⟨hc, ?_, ?_⟩
        · intro kc1 hkc1
          exact (enclosing_none_iff contains position cs2).1 h2 kc1 hkc1
        · rw [elementsPreorder_cons]
          exact List.mem_append.2 (Or.inl (by rw [elementPreorder_mk]; simp))

/-! ### Shape of a completed fetch cycle -/

theorem fillGroup_id (oc : ProviderOutcome Rng) (g : OutlineGroup Rng) :
    (OutlineModel.fillGroup oc g).id = g.id := by
  match oc with
  | .failure => rfl
  | .success result =>
    rw [OutlineModel.fillGroup]
    by_cases h : isFalsyOrEmpty result <;> simp [h]

theorem setParentModel_id (c : OutlineElement Rng) : (setParentModel c).id = c.id := by
  match c with
  | .mk i p sym sc cs => rfl

theorem setParentModel_parent (c : OutlineElement Rng) :
    (setParentModel c).parent = ParentRef.model := by
  match c with
  | .mk i p sym sc cs => rfl

theorem makeGroup_fst (oc : ProviderOutcome Rng) (index : Nat) :
    (OutlineModel.makeGroup oc index).1 = (OutlineModel.makeGroup oc index).2.id := by
  rw [OutlineModel.makeGroup]
  dsimp only
  rw [fillGroup_id]

theorem collectGroups_length (ocs : List (ProviderOutcome Rng)) :
    (OutlineModel.collectGroups ocs).length = ocs.length := by
  rw [OutlineModel.collectGroups]
  simp [List.enum_length]

theorem collectGroups_keys (ocs : List (ProviderOutcome Rng)) :
    ∀ kg ∈ OutlineModel.collectGroups ocs, kg.1 = kg.2.id := by
  intro kg hkg
  rw [OutlineModel.collectGroups] at hkg
  rcases List.mem_map.1 hkg with ⟨p, _, rfl⟩
  exact makeGroup_fst p.2 p.1

theorem collectGroups_singleton (oc : ProviderOutcome Rng) :
    OutlineModel.collectGroups [oc] = [OutlineModel.makeGroup oc 0] := by
  rfl

theorem finishRequest_of_not_single (groups : List (String × OutlineGroup Rng))
    (h : groups.length ≠ 1) :
    OutlineModel.finishRequest groups =
      { _groups := groups,
        children := groups.map (fun kg => (kg.1, ModelChild.group kg.2)) } := by
  match groups with
  | [] => rfl
  | [(gid, g)] => simp at h
  | a :: b :: rest => rfl

theorem finishRequest_single (gid : String) (g : OutlineGroup Rng) :
    OutlineModel.finishRequest [(gid, g)] =
      { _groups :=
          [(gid,
            { g with
              children := g.children.map (fun kc => (kc.1, setParentModel kc.2)) })],
        children :=
          g.children.map (fun kc =>
            ((setParentModel kc.2).id, ModelChild.element (setParentModel kc.2))) } := by
  rw [OutlineModel.finishRequest]
  simp [List.map_map, Function.comp]

mutual
theorem makeElement_keys (info : SymbolInformation Rng) (containerId : String)
    (containerRef : ParentRef) (acc : List (String × OutlineElement Rng))
    (hacc : ∀ kc ∈ acc, kc.1 = kc.2.id) :
    ∀ kc ∈ OutlineModel._makeOutlineElement info containerId containerRef acc,
      kc.1 = kc.2.id := by
  match info with
  | .mk nm dr lr childInfos =>
    intro kc hkc
    rw [OutlineModel._makeOutlineElement] at hkc
    rcases List.mem_append.1 hkc with h1 | h2
    · exact hacc kc h1
    · rcases List.mem_singleton.1 h2 with rfl
      rfl

theorem makeElements_keys (infos : List (SymbolInformation Rng))
    (containerId : String) (containerRef : ParentRef)
    (acc : List (String × OutlineElement Rng))
    (hacc : ∀ kc ∈ acc, kc.1 = kc.2.id) :
    ∀ kc ∈ OutlineModel._makeOutlineElements infos containerId containerRef acc,
      kc.1 = kc.2.id := by
  match infos with
  | [] =>
    rw [OutlineModel._makeOutlineElements]
    exact hacc
  | info :: rest =>
    rw [OutlineModel._makeOutlineElements]
    exact makeElements_keys rest containerId containerRef _
      (makeElement_keys info containerId containerRef acc hacc)
end

theorem fillGroup_keys (oc : ProviderOutcome Rng) (g : OutlineGroup Rng)
    (hg : ∀ kc ∈ g.children, kc.1 = kc.2.id) :
    ∀ kc ∈ (OutlineModel.fillGroup oc g).children, kc.1 = kc.2.id := by
  match oc with
  | .failure => exact hg
  | .success result =>
    rw [OutlineModel.fillGroup]
    by_cases h : isFalsyOrEmpty result
    · simp only [h, if_pos]
      exact hg
    · simp only [h, if_neg, Bool.false_eq_true, not_false_eq_true]
      exact makeElements_keys _ _ _ _ hg

/-! ### The model-wide enclosure loop -/

theorem enclosureGroups_none_iff (contains : Rng → Pos → Bool) (position : Pos) :
    ∀ gs : List (String × OutlineGroup Rng),
      (OutlineModel.getItemEnclosingPositionGroups contains position gs = none ↔
        ∀ kg ∈ gs, OutlineGroup.getItemEnclosingPosition contains position kg.2 = none) := by
  intro gs
  induction gs with
  | nil => simp [OutlineModel.getItemEnclosingPositionGroups]
  | cons kg rest ih =>
    match kg with
    | (k, g) =>
      rw [OutlineModel.getItemEnclosingPositionGroups]
      cases h : OutlineGroup.getItemEnclosingPosition contains position g with
      | some r =>
        simp only []
        constructor
        · intro hc; cases hc
        · intro hall
          have := hall (k, g) (by simp)
          dsimp only at this
          rw [this] at h
          cases h
      | none =>
        simp only []
        constructor
        · intro hrest kg1 hkg1
          rcases List.mem_cons.1 hkg1 with rfl | h1
          · exact h
          · exact ih.1 hrest kg1 h1
        · intro hall
          exact ih.2 fun kg1 h1 => hall kg1 (by simp [h1])

theorem enclosureGroups_some_split (contains : Rng → Pos → Bool) (position : Pos) :
    ∀ (gs : List (String × OutlineGroup Rng)) (e : OutlineElement Rng),
      OutlineModel.getItemEnclosingPositionGroups contains position gs = some e →
        ∃ l₁ kg l₂, gs = l₁ ++ kg :: l₂ ∧
          OutlineGroup.getItemEnclosingPosition contains position kg.2 = some e ∧
          ∀ kg' ∈ l₁, OutlineGroup.getItemEnclosingPosition contains position kg'.2 = none := by
  intro gs
  induction gs with
  | nil => intro e h; simp [OutlineModel.getItemEnclosingPositionGroups] at h
  | cons kg rest ih =>
    match kg with
    | (k, g) =>
      intro e h
      rw [OutlineModel.getItemEnclosingPositionGroups] at h
      cases hg : OutlineGroup.getItemEnclosingPosition contains position g with
      | some r =>
        rw [hg] at h
        cases h
        exact ⟨[], (k, g), rest, by simp, hg, by simp⟩
      | none =>
        rw [hg] at h
        rcases ih e h with ⟨l₁, kg1, l₂, hsplit, hhit, hnone⟩
        refine ⟨(k, g) :: l₁, kg1, l₂, by simp [hsplit], hhit, ?_⟩
        intro kg' hkg'
        rcases List.mem_cons.1 hkg' with rfl | h1
        · exact hg
        · exact hnone kg' h1

theorem self_mem_elementPreorder (e : OutlineElement Rng) : e ∈ elementPreorder e := by
  match e with
  | .mk i p sym sc cs =>
    rw [elementPreorder_mk]
    simp

/-! ### The claims -/

/-- C5: findId proposes the key container.id ++ candidate and, while the
proposal is a current key, appends successive integers starting at 1; the
returned id is never a current key, so inserting it and calling findId with
the same candidate again yields a different id. -/
theorem c5_findId_unique (candidate containerId : String) (keys : List String) :
    TreeElement.findId candidate containerId keys ∉ keys ∧
    ((containerId ++ candidate) ∉ keys →
      TreeElement.findId candidate containerId keys = containerId ++ candidate) ∧
    TreeElement.findId candidate containerId
        (keys ++ [TreeElement.findId candidate containerId keys]) ≠
      TreeElement.findId candidate containerId keys := by
  refine ⟨findId_not_mem candidate containerId keys, ?_, ?_⟩
  · intro h
    unfold TreeElement.findId
    simp [h]
  · intro hEq
    have h2 := findId_not_mem candidate containerId
      (keys ++ [TreeElement.findId candidate containerId keys])
    rw [hEq] at h2
    exact h2 (by simp)

/-- Witness for C5 at a concrete container: the unused proposal is returned
as is, and it is not among the current keys. -/
theorem c5_findId_unique_witness :
    TreeElement.findId "Foo" "root" ["other"] = "rootFoo" ∧
    "rootFoo" ∉ ["other"] := by
  constructor
  · have h := (c5_findId_unique "Foo" "root" ["other"]).2.1 (by decide)
    exact h
  · decide

/-- C9: getElementById is depth-first pre-order search by exact id equality
(the root is checked before its descendants, the first match is returned,
none when absent); any returned element carries the queried id, and a node
inserted under its own id is always found. -/
theorem c9_getElementById (id : String) (e : OutlineElement Rng) :
    TreeElement.getElementById id e =
      (elementPreorder e).find? (fun x => x.id == id) ∧
    (∀ r, TreeElement.getElementById id e = some r → r.id = id) ∧
    (TreeElement.getElementById id e = none ↔
      ∀ x ∈ elementPreorder e, ¬ x.id = id) ∧
    (∀ (i2 : String) (p : ParentRef) (sym : SymbolInformation Rng)
        (sc : Option FuzzyScore) (cs : List (String × OutlineElement Rng))
        (k : String) (n : OutlineElement Rng),
      (TreeElement.getElementById n.id
        (.mk i2 p sym sc (cs ++ [(k, n)]))).isSome = true) := by
  refine ⟨getElementById_eq_find id e, ?_, ?_, ?_⟩
  · intro r hr
    rw [getElementById_eq_find id e] at hr
    have := List.find?_some hr
    simpa using this
  · rw [getElementById_eq_find id e]
    rw [List.find?_eq_none]
    constructor
    · intro h x hx
      have := h x hx
      simpa using this
    · intro h x hx
      simpa using h x hx
  · intro i2 p sym sc cs k n
    rw [getElementById_eq_find]
    rw [List.find?_isSome]
    refine ⟨n, ?_, by simp⟩
    rw [elementPreorder_mk]
    refine List.mem_cons.2 (Or.inr ?_)
    rw [elementsPreorder_append]
    refine List.mem_append.2 (Or.inr ?_)
    rw [elementsPreorder_cons]
    exact List.mem_append.2 (Or.inl (self_mem_elementPreorder n))

/-- Witness for C9 at a concrete two-node tree: the nested element is found
and the returned element carries the queried id. -/
theorem c9_getElementById_witness :
    TreeElement.getElementById "ab"
        (OutlineElement.mk "a" ParentRef.model (SymbolInformation.mk "A" none () [])
          none [("ab", OutlineElement.mk "ab" (ParentRef.element "a")
            (SymbolInformation.mk "B" none () []) none [])]) =
      some (OutlineElement.mk "ab" (ParentRef.element "a")
        (SymbolInformation.mk "B" none () []) none []) ∧
    (OutlineElement.mk "ab" (ParentRef.element "a")
        (SymbolInformation.mk "B" none () []) none []).id = "ab" := by
  refine ⟨by rfl, ?_⟩
  exact (c9_getElementById "ab"
    (OutlineElement.mk "a" ParentRef.model (SymbolInformation.mk "A" none () [])
      none [("ab", OutlineElement.mk "ab" (ParentRef.element "a")
        (SymbolInformation.mk "B" none () []) none [])])).2.1 _ (by rfl)

/-- C3: the accumulator is displaced only by a strictly greater truthy
match value (the first truthy match is promoted unconditionally), so the
result of the model-wide updateMatches is the first visited matching
snapshot attaining the maximal match value: everything visited before it
scores strictly lower, everything after it no higher — an equal-scoring
later element never displaces the earlier one. -/
theorem c3_tie_break (fs : String → String → Option FuzzyScore)
    (pattern : String) (s : OutlineModelState Rng) :
    (OutlineModel.updateMatches fs s pattern).2 =
      firstMax (matchersOf fs pattern s._groups) ∧
    (∀ e, firstMax (matchersOf fs pattern s._groups) = some e →
      ∃ l₁ l₂, matchersOf fs pattern s._groups = l₁ ++ e :: l₂ ∧
        (∀ x ∈ l₁, matchValue x.score < matchValue e.score) ∧
        (∀ x ∈ l₂, matchValue x.score ≤ matchValue e.score)) := by
  constructor
  · rw [modelUpdateMatches_spec]
    dsimp only
    rw [foldTopMatch_filter]
    exact foldTopMatch_none_eq_firstMax _
      (fun y hy => by simpa using (List.mem_filter.1 hy).2)
  · exact firstMax_split _

/-- Witness for C3: two elements with equal match value; the one visited
first is returned, and the split certifies nothing before it and nothing
strictly greater after it. -/
theorem c3_tie_break_witness :
    (OutlineModel.updateMatches fsConst tieState "p").2 =
      some (matchSnapshot fsConst "p" elemA) ∧
    matchValue (matchSnapshot fsConst "p" elemA).score =
      matchValue (matchSnapshot fsConst "p" elemB).score ∧
    (∃ l₁ l₂, matchersOf fsConst "p" tieState._groups =
        l₁ ++ matchSnapshot fsConst "p" elemA :: l₂ ∧
      (∀ x ∈ l₁, matchValue x.score < matchValue (matchSnapshot fsConst "p" elemA).score) ∧
      (∀ x ∈ l₂, matchValue x.score ≤ matchValue (matchSnapshot fsConst "p" elemA).score)) := by
  refine ⟨?_, by rfl, ?_⟩
  · have h := (c3_tie_break fsConst "p" tieState).1
    rw [h]
    rfl
  · exact (c3_tie_break fsConst "p" tieState).2 (matchSnapshot fsConst "p" elemA) (by rfl)

/-- C6: a refresh during an in-flight cycle cancels it; the cancelled
cycle's late completion has no effect on `_groups` or `children`, whether
it arrives before or after the new cycle settles.  (The cancellation
behaviour of the promise library is modelled from the spec.) -/
theorem c6_refresh_race (m : AsyncOutlineModel Rng)
    (ocsOld ocsNew : List (ProviderOutcome Rng)) :
    AsyncOutlineModel.completeCycle
        (AsyncOutlineModel.completeCycle (AsyncOutlineModel.refresh m)
          (AsyncOutlineModel.refresh m).generation ocsNew)
        m.generation ocsOld =
      AsyncOutlineModel.completeCycle (AsyncOutlineModel.refresh m)
        (AsyncOutlineModel.refresh m).generation ocsNew ∧
    (AsyncOutlineModel.completeCycle (AsyncOutlineModel.refresh m)
        m.generation ocsOld).state._groups = [] ∧
    (AsyncOutlineModel.completeCycle (AsyncOutlineModel.refresh m)
        m.generation ocsOld).state.children = [] := by
  refine ⟨?_, ?_, ?_⟩
  · rw [AsyncOutlineModel.completeCycle]
    have hgen : (AsyncOutlineModel.completeCycle (AsyncOutlineModel.refresh m)
        (AsyncOutlineModel.refresh m).generation ocsNew).generation = m.generation + 1 := by
      rw [AsyncOutlineModel.completeCycle]
      simp [AsyncOutlineModel.refresh]
    rw [hgen]
    simp
  · rw [AsyncOutlineModel.completeCycle]
    simp [AsyncOutlineModel.refresh]
  · rw [AsyncOutlineModel.completeCycle]
    simp [AsyncOutlineModel.refresh]

/-- C2: after updateMatches on a group, every node's final score is its own
fuzzy score when its name matches, the truthy sentinel (0, []) when its own
name does not match but a descendant's does, and empty when neither (the
content of expectedScore); the returned element is the first-maximal truthy
match, and when exactly one node matches it is exactly that node. -/
theorem c2_match_propagation (fs : String → String → Option FuzzyScore)
    (pattern : String) (g : OutlineGroup Rng) :
    (∀ x ∈ elementsPreorder ((OutlineGroup.updateMatches fs pattern g none).1.children),
      x.score = expectedScore fs pattern x) ∧
    ((OutlineGroup.updateMatches fs pattern g none).2 =
      firstMax ((visitSnapshots fs pattern g.children).filter (fun e => e.score.isSome))) ∧
    (∀ m, (visitSnapshots fs pattern g.children).filter (fun e => e.score.isSome) = [m] →
      (OutlineGroup.updateMatches fs pattern g none).2 = some m) := by
  have hb : (OutlineGroup.updateMatches fs pattern g none).2 =
      firstMax ((visitSnapshots fs pattern g.children).filter (fun e => e.score.isSome)) := by
    rw [groupUpdateMatches_spec]
    dsimp only
    rw [foldTopMatch_filter]
    exact foldTopMatch_none_eq_firstMax _
      (fun y hy => by simpa using (List.mem_filter.1 hy).2)
  refine ⟨?_, hb, ?_⟩
  · intro x hx
    rw [groupUpdateMatches_spec] at hx
    dsimp only at hx
    exact applyScoresIn_preorder_correct fs pattern g.children x hx
  · intro m hm
    rw [hb, hm]
    rfl

/-- Witness for C2 on the chain A ▸ B ▸ C with sibling D and the pattern
matching only C: the C snapshot is returned; after the call A and B carry
the sentinel (0, []), C its own score, D the empty score. -/
theorem c2_match_propagation_witness :
    (OutlineGroup.updateMatches fsExact "C" deepGroup none).2 =
      some (matchSnapshot fsExact "C" elemC2C) ∧
    (OutlineGroup.updateMatches fsExact "C" deepGroup none).1.children =
      [("ga", OutlineElement.mk "ga" (ParentRef.group "g") (SymbolInformation.mk "A" none () [])
          (some (0, []))
          [("gab", OutlineElement.mk "gab" (ParentRef.element "ga")
            (SymbolInformation.mk "B" none () []) (some (0, []))
            [("gabc", OutlineElement.mk "gabc" (ParentRef.element "gab")
              (SymbolInformation.mk "C" none () []) (some (3, [])) [])])]),
       ("gd", OutlineElement.mk "gd" (ParentRef.group "g") (SymbolInformation.mk "D" none () [])
          none [])] := by
  refine ⟨?_, by rfl⟩
  exact (c2_match_propagation fsExact "C" deepGroup).2.2
    (matchSnapshot fsExact "C" elemC2C) (by rfl)

/-- C4 (amended): the group enclosure lookup scans children in map order,
descends into the first child whose tested range (defining range, else
location range) contains the position and explores only that branch; it
returns none exactly when no top-level child's range contains the
position, and any returned element's range contains the position while
none of its direct children's ranges do (the parent is returned only when
no child of it contains the position — deeper descendants under
non-containing children are not examined). -/
theorem c4_enclosure (contains : Rng → Pos → Bool) (position : Pos)
    (g : OutlineGroup Rng) :
    (OutlineGroup.getItemEnclosingPosition contains position g = none ↔
      ∀ kc ∈ g.children, contains (testedRange kc.2.symbol) position = false) ∧
    (∀ e, OutlineGroup.getItemEnclosingPosition contains position g = some e →
      contains (testedRange e.symbol) position = true ∧
      (∀ kc ∈ e.children, contains (testedRange kc.2.symbol) position = false) ∧
      e ∈ elementsPreorder g.children) ∧
    (∀ (k : String) (i : String) (p : ParentRef) (sym : SymbolInformation Rng)
        (sc : Option FuzzyScore) (cs2 rest : List (String × OutlineElement Rng)),
      g.children = (k, .mk i p sym sc cs2) :: rest →
      (contains (testedRange sym) position = false →
        OutlineGroup.getItemEnclosingPosition contains position g =
          OutlineGroup._getItemEnclosingPosition contains position rest) ∧
      (contains (testedRange sym) position = true →
        OutlineGroup.getItemEnclosingPosition contains position g =
          match OutlineGroup._getItemEnclosingPosition contains position cs2 with
          | some r => some r
          | none => some (.mk i p sym sc cs2))) := by
  refine ⟨?_, ?_, ?_⟩
  · exact enclosing_none_iff contains position g.children
  · intro e h
    exact enclosing_some_spec contains position g.children e h
  · intro k i p sym sc cs2 rest hchildren
    rw [OutlineGroup.getItemEnclosingPosition, hchildren]
    rw [OutlineGroup._getItemEnclosingPosition]
    constructor
    · intro hc
      rw [hc]
      rfl
    · intro hc
      rw [hc]
      rfl

/-- Witness for C4 (amended), on the counterexample forest: the lookup
returns the top element, whose range contains the position and none of
whose direct children's ranges do. -/
theorem c4_enclosure_witness :
    OutlineGroup.getItemEnclosingPosition cexContains ()
        ⟨"g", ParentRef.model, 0, cexForest⟩ = some cexA ∧
    cexContains (testedRange cexA.symbol) () = true ∧
    (∀ kc ∈ cexA.children, cexContains (testedRange kc.2.symbol) () = false) := by
  have h1 : OutlineGroup.getItemEnclosingPosition cexContains ()
      ⟨"g", ParentRef.model, 0, cexForest⟩ = some cexA := by
    simp [OutlineGroup.getItemEnclosingPosition, OutlineGroup._getItemEnclosingPosition,
      cexForest, cexA, cexB, cexC, cexContains, testedRange,
      SymbolInformation.definingRange, SymbolInformation.locationRange]
  refine ⟨h1, ?_, ?_⟩
  · exact ((c4_enclosure cexContains () ⟨"g", ParentRef.model, 0, cexForest⟩).2.1
      cexA h1).1
  · exact ((c4_enclosure cexContains () ⟨"g", ParentRef.model, 0, cexForest⟩).2.1
      cexA h1).2.1

/-- C4 counterexample: in the fixture forest the grandchild's range
contains the position, yet the lookup returns the top element (the branch
through the non-containing child is never explored), so the result is not
the most deeply nested element containing the position and a proper
descendant of the returned element does contain it. -/
theorem c4_counterexample :
    OutlineGroup._getItemEnclosingPosition cexContains () cexForest = some cexA ∧
    cexC ∈ elementsPreorder cexForest ∧
    cexContains (testedRange cexC.symbol) () = true ∧
    cexC.id ≠ cexA.id := by
  refine ⟨?_, ?_, by rfl, by decide⟩
  · simp [OutlineGroup._getItemEnclosingPosition, cexForest, cexA, cexB, cexC,
      cexContains, testedRange, SymbolInformation.definingRange,
      SymbolInformation.locationRange]
  · have h : elementsPreorder cexForest = [cexA, cexB, cexC] := by rfl
    rw [h]
    simp

/-- C8: the model enclosure lookup queries each group in `_groups` order
and returns the first truthy result: it is none exactly when every group
answers none, and any hit comes from the first group that answers, all
groups before it having answered none (no best-of-all-groups
comparison). -/
theorem c8_first_group_wins (contains : Rng → Pos → Bool)
    (s : OutlineModelState Rng) (position : Pos) :
    (OutlineModel.getItemEnclosingPosition contains s position = none ↔
      ∀ kg ∈ s._groups,
        OutlineGroup.getItemEnclosingPosition contains position kg.2 = none) ∧
    (∀ e, OutlineModel.getItemEnclosingPosition contains s position = some e →
      ∃ l₁ kg l₂, s._groups = l₁ ++ kg :: l₂ ∧
        OutlineGroup.getItemEnclosingPosition contains position kg.2 = some e ∧
        ∀ kg' ∈ l₁,
          OutlineGroup.getItemEnclosingPosition contains position kg'.2 = none) := by
  constructor
  · exact enclosureGroups_none_iff contains position s._groups
  · intro e h
    exact enclosureGroups_some_split contains position s._groups e h

/-- Witness for C8: both groups would answer, yet the first group's element
is returned. -/
theorem c8_first_group_wins_witness :
    OutlineModel.getItemEnclosingPosition cexContains encState () =
      some (OutlineElement.mk "a" (ParentRef.group "g1")
        (SymbolInformation.mk "A" none true []) none []) ∧
    OutlineGroup.getItemEnclosingPosition cexContains () encGroup2 =
      some (OutlineElement.mk "b" (ParentRef.group "g2")
        (SymbolInformation.mk "B" none true []) none []) ∧
    (∃ l₁ kg l₂, encState._groups = l₁ ++ kg :: l₂ ∧
      OutlineGroup.getItemEnclosingPosition cexContains () kg.2 =
        some (OutlineElement.mk "a" (ParentRef.group "g1")
          (SymbolInformation.mk "A" none true []) none []) ∧
      ∀ kg' ∈ l₁,
        OutlineGroup.getItemEnclosingPosition cexContains () kg'.2 = none) := by
  have h1 : OutlineModel.getItemEnclosingPosition cexContains encState () =
      some (OutlineElement.mk "a" (ParentRef.group "g1")
        (SymbolInformation.mk "A" none true []) none []) := by
    simp [OutlineModel.getItemEnclosingPosition,
      OutlineModel.getItemEnclosingPositionGroups, OutlineGroup.getItemEnclosingPosition,
      OutlineGroup._getItemEnclosingPosition, encState, encGroup1, encGroup2,
      cexContains, testedRange, SymbolInformation.definingRange,
      SymbolInformation.locationRange]
  refine ⟨h1, ?_, ?_⟩
  · simp [OutlineGroup.getItemEnclosingPosition, OutlineGroup._getItemEnclosingPosition,
      encGroup2, cexContains, testedRange, SymbolInformation.definingRange,
      SymbolInformation.locationRange]
  · exact (c8_first_group_wins cexContains encState ()).2
      (OutlineElement.mk "a" (ParentRef.group "g1")
        (SymbolInformation.mk "A" none true []) none []) h1

/-- C1: the merge rule.  When the settled group count is not one (zero
included), the presented children are exactly `_groups`, one entry per
provider keyed by the group's id; when it is exactly one, the presented
children are exactly the sole group's top-level children, each reparented
to the model and keyed by its own id, and no group appears among them. -/
theorem c1_merge_rule (ocs : List (ProviderOutcome Rng)) :
    (ocs.length ≠ 1 →
      (OutlineModel.makeRequest ocs).children =
        (OutlineModel.makeRequest ocs)._groups.map
          (fun kg => (kg.1, ModelChild.group kg.2)) ∧
      (OutlineModel.makeRequest ocs)._groups.length = ocs.length ∧
      ∀ kg ∈ (OutlineModel.makeRequest ocs)._groups, kg.1 = kg.2.id) ∧
    (∀ oc, ocs = [oc] →
      (OutlineModel.makeRequest ocs).children =
        (OutlineModel.makeGroup oc 0).2.children.map
          (fun kc =>
            ((setParentModel kc.2).id, ModelChild.element (setParentModel kc.2))) ∧
      ∀ kc ∈ (OutlineModel.makeRequest ocs).children,
        ∃ c, kc.2 = ModelChild.element c ∧ c.parent = ParentRef.model ∧
          kc.1 = c.id) := by
  constructor
  · intro hlen
    have hlen2 : (OutlineModel.collectGroups ocs).length ≠ 1 := by
      rw [collectGroups_length]
      exact hlen
    have hreq : OutlineModel.makeRequest ocs =
        { _groups := OutlineModel.collectGroups ocs,
          children := (OutlineModel.collectGroups ocs).map
            (fun kg => (kg.1, ModelChild.group kg.2)) } := by
      rw [OutlineModel.makeRequest, finishRequest_of_not_single _ hlen2]
    rw [hreq]
    exact ⟨rfl, by rw [collectGroups_length], collectGroups_keys ocs⟩
  · intro oc hoc
    subst hoc
    rcases hmk : OutlineModel.makeGroup oc 0 with ⟨gid, g0⟩
    have hreq : OutlineModel.makeRequest [oc] =
        OutlineModel.finishRequest [(gid, g0)] := by
      rw [OutlineModel.makeRequest, collectGroups_singleton, hmk]
    rw [hreq, finishRequest_single]
    constructor
    · rfl
    · intro kc hkc
      dsimp only at hkc
      rcases List.mem_map.1 hkc with ⟨kc0, _, rfl⟩
      exact ⟨setParentModel kc0.2, rfl, setParentModel_parent kc0.2, rfl⟩

/-- Witness for C1: zero providers leave the model empty with its groups
presented verbatim; a single provider delivering the symbol S yields
presented children that are reparented elements keyed by their ids. -/
theorem c1_merge_rule_witness :
    (OutlineModel.makeRequest ([] : List (ProviderOutcome Unit))).children = [] ∧
    (∀ kc ∈ (OutlineModel.makeRequest [c10oc]).children,
      ∃ c, kc.2 = ModelChild.element c ∧ c.parent = ParentRef.model ∧
        kc.1 = c.id) := by
  constructor
  · have h := ((c1_merge_rule ([] : List (ProviderOutcome Unit))).1 (by decide)).1
    rw [h]
    rfl
  · exact ((c1_merge_rule [c10oc]).2 c10oc rfl).2

/-! ### Interchangeability of failed and empty provider results -/

theorem makeGroup_failure_eq_success_none (index : Nat) :
    @OutlineModel.makeGroup Rng .failure index =
      OutlineModel.makeGroup (.success none) index := rfl

theorem makeGroup_success_none_eq_success_nil (index : Nat) :
    @OutlineModel.makeGroup Rng (.success none) index =
      OutlineModel.makeGroup (.success (some [])) index := rfl

theorem collect_set_congr (x y : ProviderOutcome Rng)
    (hxy : ∀ index, OutlineModel.makeGroup x index = OutlineModel.makeGroup y index) :
    ∀ (ocs : List (ProviderOutcome Rng)) (n i : Nat),
      ((ocs.set i x).enumFrom n).map (fun p => OutlineModel.makeGroup p.2 p.1) =
        ((ocs.set i y).enumFrom n).map (fun p => OutlineModel.makeGroup p.2 p.1) := by
  intro ocs
  induction ocs with
  | nil => intro n i; rfl
  | cons a rest ih =>
    intro n i
    match i with
    | 0 =>
      simp only [List.set_cons_zero, List.enumFrom_cons, List.map_cons]
      rw [hxy n]
    | i + 1 =>
      simp only [List.set_cons_succ, List.enumFrom_cons, List.map_cons]
      rw [ih (n + 1) i]

/-- C7: a rejected provider call and an absent or empty result are
interchangeable: the whole fetch cycle yields identical model state either
way; the failed provider's group is kept unchanged — registered with no
children — and the error never escapes (the per-provider continuation is a
total function of the outcome). -/
theorem c7_failure_swallowed (ocs : List (ProviderOutcome Rng)) (i : Nat) :
    OutlineModel.makeRequest (ocs.set i .failure) =
      OutlineModel.makeRequest (ocs.set i (.success none)) ∧
    OutlineModel.makeRequest (ocs.set i (.success none)) =
      OutlineModel.makeRequest (ocs.set i (.success (some []))) ∧
    (∀ g : OutlineGroup Rng, OutlineModel.fillGroup .failure g = g) ∧
    (∀ index : Nat,
      (@OutlineModel.makeGroup Rng .failure index).2.children = []) := by
  refine ⟨?_, ?_, fun g => rfl, fun index => rfl⟩
  · rw [OutlineModel.makeRequest, OutlineModel.makeRequest]
    congr 1
    exact collect_set_congr _ _ makeGroup_failure_eq_success_none ocs 0 i
  · rw [OutlineModel.makeRequest, OutlineModel.makeRequest]
    congr 1
    exact collect_set_congr _ _ makeGroup_success_none_eq_success_nil ocs 0 i

theorem filterMap_wrap (cs : List (String × OutlineElement Rng)) :
    (cs.map (fun kc => (kc.1, ModelChild.element kc.2))).filterMap
      (fun kc => match kc.2 with
        | ModelChild.element c => some (kc.1, c)
        | ModelChild.group _ => none) = cs := by
  induction cs with
  | nil => rfl
  | cons kc rest ih =>
    rw [List.map_cons, List.filterMap_cons]
    simp only []
    rw [ih]

theorem presentedElements_wrap (gs : List (String × OutlineGroup Rng))
    (cs : List (String × OutlineElement Rng)) :
    presentedElements
      { _groups := gs, children := cs.map (fun kc => (kc.1, ModelChild.element kc.2)) } =
      cs := by
  rw [presentedElements]
  exact filterMap_wrap cs

/-- C10 (implicit): after a single-group fetch the adoption step leaves the
sole group's children in place (reparented through the shared objects);
the presented children are exactly those same elements, and since the
model-wide updateMatches and getItemEnclosingPosition iterate `_groups`,
every element they score or return is one of the elements exposed —
directly or transitively — through the presented `children`. -/
theorem c10_adoption_aliasing (fs : String → String → Option FuzzyScore)
    (contains : Rng → Pos → Bool) (oc : ProviderOutcome Rng)
    (pattern : String) (position : Pos) :
    ∃ gid g,
      (OutlineModel.makeRequest [oc])._groups = [(gid, g)] ∧
      presentedElements (OutlineModel.makeRequest [oc]) = g.children ∧
      (OutlineModel.makeRequest [oc]).children =
        g.children.map (fun kc => (kc.1, ModelChild.element kc.2)) ∧
      (OutlineModel.updateMatches fs (OutlineModel.makeRequest [oc]) pattern).1 =
        [(gid, { g with children := applyScoresIn fs pattern g.children })] ∧
      (∀ e, OutlineModel.getItemEnclosingPosition contains
          (OutlineModel.makeRequest [oc]) position = some e →
        e ∈ elementsPreorder (presentedElements (OutlineModel.makeRequest [oc]))) := by
  rcases hmk : OutlineModel.makeGroup oc 0 with ⟨gid, g0⟩
  have hkeys : ∀ kc ∈ g0.children, kc.1 = kc.2.id := by
    have : g0 = OutlineModel.fillGroup oc
        { id := gid, parent := .model, providerIndex := 0, children := [] } := by
      have h1 := congrArg Prod.snd hmk
      have h2 := congrArg Prod.fst hmk
      rw [OutlineModel.makeGroup] at h1 h2
      dsimp only at h1 h2
      rw [← h1, ← h2]
    rw [this]
    exact fillGroup_keys oc _ (by intro kc h; simp at h)
  have hreq : OutlineModel.makeRequest [oc] =
      OutlineModel.finishRequest [(gid, g0)] := by
    rw [OutlineModel.makeRequest, collectGroups_singleton, hmk]
  refine ⟨gid,
    { g0 with
      children := g0.children.map (fun kc => (kc.1, setParentModel kc.2)) },
    ?_, ?_, ?_, ?_, ?_⟩
  · rw [hreq, finishRequest_single]
  · rw [hreq, finishRequest_single]
    have hsplit2 : g0.children.map (fun kc =>
        ((setParentModel kc.2).id, ModelChild.element (setParentModel kc.2))) =
        (g0.children.map (fun kc => ((setParentModel kc.2).id, setParentModel kc.2))).map
          (fun kc => (kc.1, ModelChild.element kc.2)) := by
      rw [List.map_map]
      rfl
    rw [hsplit2, presentedElements_wrap]
    show _ = g0.children.map (fun kc => (kc.1, setParentModel kc.2))
    exact List.map_congr_left fun kc hkc => by
      rw [setParentModel_id, ← hkeys kc hkc]
  · rw [hreq, finishRequest_single]
    dsimp only
    rw [List.map_map]
    exact List.map_congr_left fun kc hkc => by
      dsimp only [Function.comp]
      rw [setParentModel_id, ← hkeys kc hkc]
  · rw [hreq, finishRequest_single, modelUpdateMatches_spec]
    rfl
  · intro e he
    rcases enclosureGroups_some_split contains position _ e he with
      ⟨l₁, kg, l₂, hsplit, hhit, _⟩
    have hgs : (OutlineModel.makeRequest [oc])._groups =
        [(gid,
          { g0 with
            children := g0.children.map (fun kc => (kc.1, setParentModel kc.2)) })] := by
      rw [hreq, finishRequest_single]
    rw [hgs] at hsplit
    have hkg : kg = (gid,
        { g0 with
          children := g0.children.map (fun kc => (kc.1, setParentModel kc.2)) }) := by
      rcases l₁ with _ | ⟨x, xs⟩
      · rw [List.nil_append] at hsplit
        injection hsplit with h1 h2
        exact h1.symm
      · rw [List.cons_append] at hsplit
        injection hsplit with h1 h2
        exact absurd h2.symm (by simp)
    rw [hkg] at hhit
    have hmem := (enclosing_some_spec contains position _ e hhit).2.2
    have hpres : presentedElements (OutlineModel.makeRequest [oc]) =
        g0.children.map (fun kc => (kc.1, setParentModel kc.2)) := by
      rw [hreq, finishRequest_single]
      have hsplit2 : g0.children.map (fun kc =>
          ((setParentModel kc.2).id, ModelChild.element (setParentModel kc.2))) =
          (g0.children.map (fun kc => ((setParentModel kc.2).id, setParentModel kc.2))).map
            (fun kc => (kc.1, ModelChild.element kc.2)) := by
        rw [List.map_map]
        rfl
      rw [hsplit2, presentedElements_wrap]
      exact List.map_congr_left fun kc hkc => by
        rw [setParentModel_id, ← hkeys kc hkc]
    rw [hpres]
    exact hmem

/-- Witness for C10: with one provider delivering S (with nested T) and
all-containing geometry, the enclosure query answers the nested element T,
which indeed lives in the presented forest. -/
theorem c10_adoption_aliasing_witness :
    OutlineModel.getItemEnclosingPosition alwaysContains
        (OutlineModel.makeRequest [c10oc]) () = some c10T ∧
    c10T ∈ elementsPreorder (presentedElements (OutlineModel.makeRequest [c10oc])) := by
  have hstate : OutlineModel.makeRequest [c10oc] =
      ⟨[("rootprovider_0",
          ⟨"rootprovider_0", ParentRef.model, 0, [("rootprovider_0S", c10S)]⟩)],
        [("rootprovider_0S", ModelChild.element c10S)]⟩ := by rfl
  have hnil : OutlineGroup._getItemEnclosingPosition alwaysContains ()
      ([] : List (String × OutlineElement Unit)) = none := by
    rw [OutlineGroup._getItemEnclosingPosition]
  have hT : OutlineGroup._getItemEnclosingPosition alwaysContains ()
      [("rootprovider_0ST", c10T)] = some c10T := by
    show OutlineGroup._getItemEnclosingPosition alwaysContains ()
      [("rootprovider_0ST", OutlineElement.mk "rootprovider_0ST"
        (.element "rootprovider_0S") (.mk "T" none () []) (some (0, [])) [])] = _
    rw [OutlineGroup._getItemEnclosingPosition]
    rw [hnil]
    rfl
  have hS : OutlineGroup._getItemEnclosingPosition alwaysContains ()
      [("rootprovider_0S", c10S)] = some c10T := by
    show OutlineGroup._getItemEnclosingPosition alwaysContains ()
      [("rootprovider_0S", OutlineElement.mk "rootprovider_0S" ParentRef.model symS
        (some (0, [])) [("rootprovider_0ST", c10T)])] = _
    rw [OutlineGroup._getItemEnclosingPosition]
    rw [hT]
    rfl
  have hGroup : OutlineGroup.getItemEnclosingPosition alwaysContains ()
      (⟨"rootprovider_0", ParentRef.model, 0,
        [("rootprovider_0S", c10S)]⟩ : OutlineGroup Unit) = some c10T := by
    rw [OutlineGroup.getItemEnclosingPosition]
    exact hS
  have h1 : OutlineModel.getItemEnclosingPosition alwaysContains
      (OutlineModel.makeRequest [c10oc]) () = some c10T := by
    rw [hstate]
    rw [OutlineModel.getItemEnclosingPosition]
    show OutlineModel.getItemEnclosingPositionGroups alwaysContains ()
      [("rootprovider_0",
        ⟨"rootprovider_0", ParentRef.model, 0, [("rootprovider_0S", c10S)]⟩)] = _
    rw [OutlineModel.getItemEnclosingPositionGroups]
    rw [hGroup]
  refine ⟨h1, ?_⟩
  obtain ⟨gid, g, _, _, _, _, hg5⟩ :=
    c10_adoption_aliasing fsConst alwaysContains c10oc "p" ()
  exact hg5 c10T h1

end Outline
